import Mathlib

/-!
Verification of the fvideo gaze-driven foveated video pipeline.

This file shallowly embeds the pure/algorithmic core of the Rust sources
(`fvideo/src/lib.rs`, `twostreamserver.rs`, `dummyserver.rs`, `client.rs`,
`eyelink-rs/src/ascparser.rs`, `bin/realtime.rs`) and proves the spec's
claims about it.  Machine integers are modelled as `Nat`/`Int` with explicit
wrap-around where overflow matters; fallible code returns sum types whose
constructors distinguish the typed error that the Rust code returns from a
panic; external collaborators (the x264 codec, SDL, the tracker SDK) are
abstracted as inputs to the state-transition functions, exactly at the
boundary where the Rust code calls into them.
-/

namespace Fvideo

/-- `Dims` from `fvideo/src/lib.rs`: `(width, height)` of a video. -/
structure Dims where
  width : Nat
  height : Nat
deriving DecidableEq, Repr

/-- `GazeSample` from `fvideo/src/lib.rs`.  `Instant` is modelled as a `Nat`
timestamp; all pixel fields are `u32` values modelled as `Nat`. -/
structure GazeSample where
  time : Nat
  seqno : Nat
  d_width : Nat
  d_height : Nat
  d_x : Nat
  d_y : Nat
  p_x : Nat
  p_y : Nat
  m_x : Nat
  m_y : Nat
deriving DecidableEq, Repr

instance : Inhabited GazeSample := ⟨⟨0, 0, 0, 0, 0, 0, 0, 0, 0, 0⟩⟩

/-! ### `parse_bg_width` (`fvideo/src/bin/realtime.rs`)

`parse_bg_width` parses a `u32` and accepts it iff it and the derived
background height `bg_width * 9 / 16` are both multiples of 16.  The
multiplication `bg_width * 9` is `u32` arithmetic, modelled with an explicit
wrap modulo `2^32`. -/

/-- The derived background height `bg_width * 9 / 16`, in wrapping `u32`
arithmetic as executed by the release binary. -/
def bg_height (w : Nat) : Nat := w * 9 % 2 ^ 32 / 16

/-- `parse_bg_width` on an already-parsed `u32` value: `none` models `Err`,
`some w` models `Ok(bg_width)`. -/
def parse_bg_width (w : Nat) : Option Nat :=
  if ¬(w % 16 = 0) ∨ ¬(bg_height w % 16 = 0) then none else some w

/-- C9: `parse_bg_width` accepts a width exactly when the width is a multiple
of 16 and the derived height `bg_width * 9 / 16` is a multiple of 16; 510 is
rejected, 512 is accepted with derived height 288. -/
theorem parse_bg_width_spec :
    (∀ w : Nat, w < 2 ^ 32 →
      ((parse_bg_width w).isSome ↔ (w % 16 = 0 ∧ (w * 9 / 16) % 16 = 0))) ∧
    parse_bg_width 510 = none ∧
    parse_bg_width 512 = some 512 ∧ bg_height 512 = 288 := by
  refine ⟨fun w _hw => ?_, by decide, by decide, by decide⟩
  have key : ∀ x : Nat, x / 16 % 16 = x % 256 / 16 := fun x => by
    rw [← Nat.mod_mul_right_div_self]
  have hmod : w * 9 % 2 ^ 32 / 16 % 16 = w * 9 / 16 % 16 := by
    rw [key, key, Nat.mod_mod_of_dvd _ (by norm_num)]
  simp only [parse_bg_width, bg_height, hmod]
  by_cases h1 : w % 16 = 0 <;> by_cases h2 : w * 9 / 16 % 16 = 0 <;>
    simp [h1, h2]

/-- Witness for C9 at `w = 512`. -/
theorem parse_bg_width_spec_witness :
    (512 : Nat) < 2 ^ 32 ∧
      ((parse_bg_width 512).isSome ↔ ((512 : Nat) % 16 = 0 ∧ (512 * 9 / 16) % 16 = 0)) :=
  ⟨by decide, parse_bg_width_spec.1 512 (by decide)⟩

/-! ### The dummy server (`fvideo/src/dummyserver.rs`)

`FvideoDummyServer::encode_frame` ignores input video: it emits an all-black
picture until the gaze moves more than `DIFF_THRESH = 50` px from the first
observed gaze, then a white-patch picture, and after `LINGER_FRAMES = 1`
encodes in the triggered state it returns a terminal error.  The x264 encoder
handle is an external collaborator; in zero-latency configuration it emits
one NAL per encoded picture, so the emitted NAL is modelled by which picture
was encoded. -/

/-- `DIFF_THRESH` from `dummyserver.rs`. -/
def DIFF_THRESH : Nat := 50

/-- `LINGER_FRAMES` from `dummyserver.rs`. -/
def LINGER_FRAMES : Int := 1

/-- Mutable state of `FvideoDummyServer` relevant to `encode_frame`. -/
structure DummyState where
  timestamp : Int
  triggeredBuff : Int
  triggered : Bool
  firstGaze : Option GazeSample
deriving DecidableEq, Repr

/-- Initial state established by `FvideoDummyServer::new`. -/
def dummyInit : DummyState := ⟨0, 0, false, none⟩

/-- Observable result of one `encode_frame` call: the background NAL encodes
the black picture or the white-patch picture, or the call returns the
terminal `EncoderError("Finished.")`. -/
inductive DummyOut where
  | black
  | white
  | finished
deriving DecidableEq, Repr

/-- Whether gaze `g` differs from gaze `f` by more than `DIFF_THRESH` on
either axis (the `i32` comparison in `encode_frame`). -/
def dummyTrigCond (g f : GazeSample) : Prop :=
  DIFF_THRESH < ((g.p_x : Int) - (f.p_x : Int)).natAbs ∨
    DIFF_THRESH < ((g.p_y : Int) - (f.p_y : Int)).natAbs

instance (g f : GazeSample) : Decidable (dummyTrigCond g f) := by
  unfold dummyTrigCond; infer_instance

/-- One call of `FvideoDummyServer::encode_frame`, mirroring the Rust control
flow: early-return when `triggered_buff >= LINGER_FRAMES`, record the first
gaze, latch `triggered`, pick the picture, bump `timestamp`, and bump
`triggered_buff` when triggered. -/
def dummyStep (st : DummyState) (gaze : GazeSample) : DummyState × DummyOut :=
  if LINGER_FRAMES ≤ st.triggeredBuff then (st, .finished)
  else
    let st1 := if st.firstGaze.isNone then { st with firstGaze := some gaze } else st
    let first := st1.firstGaze.getD gaze
    let st2 :=
      if ¬st1.triggered ∧ dummyTrigCond gaze first then
        { st1 with triggered := true }
      else st1
    let out := if st2.triggered then DummyOut.white else DummyOut.black
    let st3 := { st2 with timestamp := st2.timestamp + 1 }
    let st4 :=
      if st3.triggered then { st3 with triggeredBuff := st3.triggeredBuff + 1 } else st3
    (st4, out)

/-- Run the dummy server over a list of gaze samples, collecting each call's
observable result. -/
def dummyRun (st : DummyState) : List GazeSample → List DummyOut
  | [] => []
  | g :: gs =>
    let (st', o) := dummyStep st g
    o :: dummyRun st' gs

/-- Whether the `j`-th gaze of the run exceeds the threshold relative to the
first gaze of the run. -/
def dummyTrigAt (gs : List GazeSample) (j : Nat) : Prop :=
  dummyTrigCond (gs.getD j default) (gs.getD 0 default)

instance (gs : List GazeSample) (j : Nat) : Decidable (dummyTrigAt gs j) := by
  unfold dummyTrigAt; infer_instance

instance (gs : List GazeSample) (i : Nat) : Decidable (∃ j < i, dummyTrigAt gs j) :=
  decidable_of_iff (∃ j ∈ Finset.range i, dummyTrigAt gs j) (by simp)

/-- The three-call example run of the spec: first gaze `(0,0)`, then
`(200,200)` twice. -/
def dummyExampleRun : List GazeSample :=
  [⟨0, 0, 0, 0, 0, 0, 0, 0, 0, 0⟩, ⟨1, 1, 0, 0, 0, 0, 200, 200, 0, 0⟩,
    ⟨2, 2, 0, 0, 0, 0, 200, 200, 0, 0⟩]

theorem dummyTrigCond_self (g : GazeSample) : ¬dummyTrigCond g g := by
  simp [dummyTrigCond, DIFF_THRESH]

/-- Untriggered steady state of the dummy server: first gaze recorded,
trigger not yet fired. -/
def notrigSt (f : GazeSample) (ts : Int) : DummyState := ⟨ts, 0, false, some f⟩

theorem dummyStep_finished (st : DummyState) (g : GazeSample)
    (h : LINGER_FRAMES ≤ st.triggeredBuff) : dummyStep st g = (st, .finished) := by
  simp [dummyStep, h]

theorem dummyRun_finished (st : DummyState) (gs : List GazeSample)
    (h : LINGER_FRAMES ≤ st.triggeredBuff) :
    dummyRun st gs = gs.map fun _ => .finished := by
  induction gs with
  | nil => rfl
  | cons g rest ih => simp [dummyRun, dummyStep_finished st g h, ih]

theorem dummyStep_notrig_fire (f : GazeSample) (ts : Int) (g : GazeSample)
    (h : dummyTrigCond g f) :
    dummyStep (notrigSt f ts) g = (⟨ts + 1, 1, true, some f⟩, .white) := by
  simp [dummyStep, notrigSt, LINGER_FRAMES, h]

theorem dummyStep_notrig_quiet (f : GazeSample) (ts : Int) (g : GazeSample)
    (h : ¬dummyTrigCond g f) :
    dummyStep (notrigSt f ts) g = (notrigSt f (ts + 1), .black) := by
  simp [dummyStep, notrigSt, LINGER_FRAMES, h]

theorem dummyRun_notrig (f : GazeSample) (ts : Int) (l : List GazeSample)
    (i : Nat) (hi : i < l.length) :
    (dummyRun (notrigSt f ts) l).getD i .black =
      if ∃ j < i, dummyTrigCond (l.getD j default) f then .finished
      else if dummyTrigCond (l.getD i default) f then .white
      else .black := by
  induction l generalizing i ts with
  | nil => exact absurd hi (by simp)
  | cons g rest ih =>
    by_cases hg : dummyTrigCond g f
    · rw [show dummyRun (notrigSt f ts) (g :: rest)
          = .white :: (rest.map fun _ => .finished) by
        simp [dummyRun, dummyStep_notrig_fire f ts g hg,
          dummyRun_finished ⟨ts + 1, 1, true, some f⟩ rest (by simp [LINGER_FRAMES])]]
      match i with
      | 0 => simp [hg]
      | k + 1 =>
        have hk : k < rest.length := by simpa using hi
        have hex : ∃ j < k + 1, dummyTrigCond ((g :: rest).getD j default) f :=
          ⟨0, Nat.succ_pos k, by simpa using hg⟩
        rw [if_pos hex]
        simp [List.getD_eq_getElem?_getD, hk]
    · rw [show dummyRun (notrigSt f ts) (g :: rest)
          = .black :: dummyRun (notrigSt f (ts + 1)) rest by
        simp [dummyRun, dummyStep_notrig_quiet f ts g hg]]
      match i with
      | 0 => simp [hg]
      | k + 1 =>
        have hk : k < rest.length := by simpa using hi
        rw [List.getD_cons_succ, ih (ts + 1) k hk]
        have hiff : (∃ j < k, dummyTrigCond (rest.getD j default) f) ↔
            ∃ j < k + 1, dummyTrigCond ((g :: rest).getD j default) f := by
          constructor
          · rintro ⟨j, hj, hcond⟩
            exact ⟨j + 1, by omega, by simpa using hcond⟩
          · rintro ⟨j, hj, hcond⟩
            match j with
            | 0 => exact absurd (by simpa using hcond) hg
            | j + 1 => exact ⟨j, by omega, by simpa using hcond⟩
        rw [show rest.getD k default = (g :: rest).getD (k + 1) default by simp]
        by_cases hcase : ∃ j < k, dummyTrigCond (rest.getD j default) f
        · rw [if_pos hcase, if_pos (hiff.mp hcase)]
        · rw [if_neg hcase, if_neg (fun hc => hcase (hiff.mpr hc))]

/-- Full characterization of a dummy-server run: call `i` returns black
before any trigger, white at the first trigger, and the terminal error
afterwards. -/
theorem dummyRun_char (gs : List GazeSample) (i : Nat) (hi : i < gs.length) :
    (dummyRun dummyInit gs).getD i .black =
      if ∃ j < i, dummyTrigAt gs j then .finished
      else if dummyTrigAt gs i then .white
      else .black := by
  match gs, hi with
  | g :: rest, hi =>
    have hstep : dummyStep dummyInit g = (notrigSt g 1, .black) := by
      simp [dummyStep, dummyInit, notrigSt, LINGER_FRAMES, dummyTrigCond_self g]
    rw [show dummyRun dummyInit (g :: rest)
        = .black :: dummyRun (notrigSt g 1) rest by simp [dummyRun, hstep]]
    match i with
    | 0 =>
      have h0 : ¬dummyTrigAt (g :: rest) 0 := by
        simpa [dummyTrigAt] using dummyTrigCond_self g
      simp [h0]
    | k + 1 =>
      have hk : k < rest.length := by simpa using hi
      rw [List.getD_cons_succ, dummyRun_notrig g 1 rest k hk]
      have hiff : (∃ j < k, dummyTrigCond (rest.getD j default) g) ↔
          ∃ j < k + 1, dummyTrigAt (g :: rest) j := by
        constructor
        · rintro ⟨j, hj, hcond⟩
          exact ⟨j + 1, by omega, by simpa [dummyTrigAt] using hcond⟩
        · rintro ⟨j, hj, hcond⟩
          match j with
          | 0 => exact absurd (by simpa [dummyTrigAt] using hcond) (dummyTrigCond_self g)
          | j + 1 => exact ⟨j, by omega, by simpa [dummyTrigAt] using hcond⟩
      have heq : dummyTrigCond (rest.getD k default) g ↔ dummyTrigAt (g :: rest) (k + 1) := by
        simp [dummyTrigAt]
      by_cases hcase : ∃ j < k, dummyTrigCond (rest.getD j default) g
      · rw [if_pos hcase, if_pos (hiff.mp hcase)]
      · rw [if_neg hcase, if_neg (fun hc => hcase (hiff.mpr hc))]
        by_cases htk : dummyTrigCond (rest.getD k default) g
        · rw [if_pos htk, if_pos (heq.mp htk)]
        · rw [if_neg htk, if_neg (fun hc => htk (heq.mpr hc))]

/-- C2: the dummy server emits the black picture on every call while the
gaze delta from the first-ever-observed gaze stays within `DIFF_THRESH = 50`
px on both axes, switches permanently to the white-patch picture on the
first call whose delta exceeds 50 px on either axis, and after
`LINGER_FRAMES = 1` encodes in the white state every later call returns the
terminal error; in particular a first gaze `(0,0)` followed by `(200,200)`
yields one black NAL, one white NAL, then the terminal error. -/
theorem dummy_encode_frame_spec :
    (∀ (gs : List GazeSample) (i : Nat), i < gs.length →
      (∀ j, j ≤ i → ¬dummyTrigAt gs j) →
      (dummyRun dummyInit gs).getD i .black = .black) ∧
    (∀ (gs : List GazeSample) (i : Nat), i < gs.length →
      dummyTrigAt gs i → (∀ j, j < i → ¬dummyTrigAt gs j) →
      (dummyRun dummyInit gs).getD i .black = .white) ∧
    (∀ (gs : List GazeSample) (i j : Nat), i < gs.length →
      j < i → dummyTrigAt gs j →
      (dummyRun dummyInit gs).getD i .black = .finished) ∧
    dummyRun dummyInit dummyExampleRun = [.black, .white, .finished] := by
  refine ⟨fun gs i hi hq => ?_, fun gs i hi ht hq => ?_, fun gs i j hi hj ht => ?_, by decide⟩
  · rw [dummyRun_char gs i hi,
      if_neg (fun ⟨j, hj, hc⟩ => hq j (Nat.le_of_lt hj) hc),
      if_neg (hq i le_rfl)]
  · rw [dummyRun_char gs i hi, if_neg (fun ⟨j, hj, hc⟩ => hq j hj hc), if_pos ht]
  · rw [dummyRun_char gs i hi, if_pos ⟨j, hj, ht⟩]

/-- Witness for C2: the white case at the concrete three-call run, index 1. -/
theorem dummy_encode_frame_spec_witness :
    1 < dummyExampleRun.length ∧ dummyTrigAt dummyExampleRun 1 ∧
      (∀ j, j < 1 → ¬dummyTrigAt dummyExampleRun j) ∧
      (dummyRun dummyInit dummyExampleRun).getD 1 DummyOut.black = DummyOut.white :=
  ⟨by decide, by decide, by decide,
    dummy_encode_frame_spec.2.1 dummyExampleRun 1 (by decide) (by decide) (by decide)⟩

/-! ### Gaze projection (`fvideo/src/client.rs`)

`FvideoClient::new` clips the canvas to a source-sized rectangle centered on
the display (`Rect::from_center`); `to_video_coords` translates a display
position into that rectangle and clamps to `[0, clip.width]` and
`[0, clip.height]`; the mouse branch of `gaze_sample` builds a `GazeSample`
with `p = to_video_coords(d)` and `m = p / 16` (the Eyelink branch computes
`p` and `m` from `to_video_coords` identically, only `d` comes from the
tracker instead of the mouse state). -/

/-- An SDL rectangle as used for the canvas clip: top-left corner (`i32`)
plus `u32` width and height. -/
structure ClipRect where
  x : Int
  y : Int
  w : Nat
  h : Nat
deriving DecidableEq, Repr

/-- `Rect::from_center(center, width, height)`: top-left is the center minus
half the dimensions (truncated `i32` division). -/
def clipRectFromCenter (cx cy : Int) (w h : Nat) : ClipRect :=
  ⟨cx - (w : Int) / 2, cy - (h : Int) / 2, w, h⟩

/-- The canvas clip rectangle set by `FvideoClient::new`: a source-sized
rectangle centered on the display. -/
def canvasClipRect (disp src : Dims) : ClipRect :=
  clipRectFromCenter ((disp.width : Int) / 2) ((disp.height : Int) / 2)
    src.width src.height

/-- `FvideoClient::to_video_coords`: offset by the clip origin, then clamp
into `[0, clip width]` and `[0, clip height]` (in this order, as the Rust
code applies `min` before `max`). -/
def to_video_coords (clip : ClipRect) (d_x d_y : Nat) : Nat × Nat :=
  let px := max (min ((d_x : Int) - clip.x) (clip.w : Int)) 0
  let py := max (min ((d_y : Int) - clip.y) (clip.h : Int)) 0
  (px.toNat, py.toNat)

/-- The `GazeSample` built by the mouse branch of
`FvideoClient::gaze_sample`. -/
def mouseGazeSample (disp src : Dims) (time seqno d_x d_y : Nat) : GazeSample :=
  let p := to_video_coords (canvasClipRect disp src) d_x d_y
  ⟨time, seqno, disp.width, disp.height, d_x, d_y, p.1, p.2, p.1 / 16, p.2 / 16⟩

/-- C3: for every display position inside the video rectangle and every
source size, the produced gaze sample satisfies `p_x < W`, `p_y < H` (with
`0 ≤ p` by construction) and `m = p / 16` in integer division. -/
theorem gaze_projection_spec (disp src : Dims) (time seqno d_x d_y : Nat)
    (hx0 : (canvasClipRect disp src).x ≤ (d_x : Int))
    (hx1 : (d_x : Int) < (canvasClipRect disp src).x + src.width)
    (hy0 : (canvasClipRect disp src).y ≤ (d_y : Int))
    (hy1 : (d_y : Int) < (canvasClipRect disp src).y + src.height) :
    (mouseGazeSample disp src time seqno d_x d_y).p_x < src.width ∧
    (mouseGazeSample disp src time seqno d_x d_y).p_y < src.height ∧
    (mouseGazeSample disp src time seqno d_x d_y).m_x
      = (mouseGazeSample disp src time seqno d_x d_y).p_x / 16 ∧
    (mouseGazeSample disp src time seqno d_x d_y).m_y
      = (mouseGazeSample disp src time seqno d_x d_y).p_y / 16 := by
  refine ⟨?_, ?_, rfl, rfl⟩ <;>
    · simp only [mouseGazeSample, to_video_coords, canvasClipRect,
        clipRectFromCenter] at *
      omega

/-- Witness for C3: display 3840x2160, source 1920x1080, gaze at
display position (1000, 700). -/
theorem gaze_projection_spec_witness :
    (canvasClipRect ⟨3840, 2160⟩ ⟨1920, 1080⟩).x ≤ (1000 : Int) ∧
    (1000 : Int) < (canvasClipRect ⟨3840, 2160⟩ ⟨1920, 1080⟩).x + 1920 ∧
    (canvasClipRect ⟨3840, 2160⟩ ⟨1920, 1080⟩).y ≤ (700 : Int) ∧
    (700 : Int) < (canvasClipRect ⟨3840, 2160⟩ ⟨1920, 1080⟩).y + 1080 ∧
    ((mouseGazeSample ⟨3840, 2160⟩ ⟨1920, 1080⟩ 0 0 1000 700).p_x < 1920 ∧
      (mouseGazeSample ⟨3840, 2160⟩ ⟨1920, 1080⟩ 0 0 1000 700).p_y < 1080 ∧
      (mouseGazeSample ⟨3840, 2160⟩ ⟨1920, 1080⟩ 0 0 1000 700).m_x
        = (mouseGazeSample ⟨3840, 2160⟩ ⟨1920, 1080⟩ 0 0 1000 700).p_x / 16 ∧
      (mouseGazeSample ⟨3840, 2160⟩ ⟨1920, 1080⟩ 0 0 1000 700).m_y
        = (mouseGazeSample ⟨3840, 2160⟩ ⟨1920, 1080⟩ 0 0 1000 700).p_y / 16) :=
  ⟨by decide, by decide, by decide, by decide,
    gaze_projection_spec ⟨3840, 2160⟩ ⟨1920, 1080⟩ 0 0 1000 700
      (by decide) (by decide) (by decide) (by decide)⟩

/-! ### The two-stream server (`fvideo/src/twostreamserver.rs`)

`FvideoTwoStreamServer::encode_frame` reads at most one new source frame
(paced by wall clock; whether the pacing condition fired is the boolean
result of `read_frame`, modelled as an input), decides `gaze_changed`
against `last_gaze_sample` with threshold `DIFF_THRESH = 10`, rescales and
encodes the background only when the frame advanced, and crops and encodes
the foreground when the frame advanced or the gaze changed.  The two x264
encoder handles are external collaborators: their per-call result (a NAL or
a delayed `None`) is modelled as an input `Option`.  NAL payloads are
opaque tokens (`Nat`). -/

/-- `DIFF_THRESH` from `twostreamserver.rs`: gaze-change threshold in px. -/
def TS_DIFF_THRESH : Nat := 10

/-- The `gaze_changed` test of `encode_frame`: the new gaze differs from
`last_gaze_sample` by more than 10 px on either axis. -/
def tsGazeChanged (last g : GazeSample) : Prop :=
  TS_DIFF_THRESH < ((last.p_x : Int) - (g.p_x : Int)).natAbs ∨
    TS_DIFF_THRESH < ((last.p_y : Int) - (g.p_y : Int)).natAbs

instance (last g : GazeSample) : Decidable (tsGazeChanged last g) := by
  unfold tsGazeChanged; infer_instance

/-- The gaze adjustment performed by `crop_x264_pic`: `p_y` (resp. `p_x`)
is bumped by 1 exactly when the centered top (resp. left) coordinate
`p - F/2` is odd, so that the crop's top-left stays even. -/
def adjustGaze (g : GazeSample) (w h : Nat) : GazeSample :=
  { g with
    p_y := if ((g.p_y : Int) - (h : Int) / 2) % 2 = 0 then g.p_y else g.p_y + 1,
    p_x := if ((g.p_x : Int) - (w : Int) / 2) % 2 = 0 then g.p_x else g.p_x + 1 }

/-- Mutable state of `FvideoTwoStreamServer` relevant to `encode_frame`. -/
structure TwoStreamState where
  lastGazeSample : GazeSample
  timestamp : Int
deriving DecidableEq, Repr

/-- One call of `FvideoTwoStreamServer::encode_frame`.  `gazeIn` is the
optional new gaze (`None` resumes with the previous one), `advanced` is the
result of `read_frame`, and `bgResp`/`fgResp` are the encoder handles'
responses.  Returns the new state and `(fg_nal, bg_nal)`. -/
def twostream_encode_frame (fovea : Nat) (st : TwoStreamState)
    (gazeIn : Option GazeSample) (advanced : Bool)
    (bgResp fgResp : Option Nat) :
    TwoStreamState × (Option (Nat × GazeSample) × Option Nat) :=
  let gaze := gazeIn.getD st.lastGazeSample
  let changed : Bool := decide (tsGazeChanged st.lastGazeSample gaze)
  let st1 := if changed then { st with lastGazeSample := gaze } else st
  let bg_nal := if advanced then bgResp else none
  if advanced || changed then
    let gaze2 := adjustGaze gaze fovea fovea
    let st2 := { st1 with timestamp := st1.timestamp + 1 }
    (st2, (fgResp.map fun n => (n, gaze2), bg_nal))
  else
    (st1, (none, bg_nal))

/-- C1: in every `encode_frame` call, a background NAL is produced exactly
when the source frame advanced (and the encoder emitted one); the
foreground is cropped and encoded, paired with the (crop-adjusted) gaze
used, exactly when the frame advanced or the gaze moved beyond the 10-px
threshold on either axis; `last_gaze_sample` is updated only on such a gaze
change.  When neither condition holds both equations evaluate to
`(none, none)`. -/
theorem twostream_encode_frame_spec (fovea : Nat) (st : TwoStreamState)
    (gazeIn : Option GazeSample) (advanced : Bool) (bgResp fgResp : Option Nat) :
    (twostream_encode_frame fovea st gazeIn advanced bgResp fgResp).2.2
        = (if advanced then bgResp else none) ∧
    (twostream_encode_frame fovea st gazeIn advanced bgResp fgResp).2.1
        = (if advanced = true ∨ tsGazeChanged st.lastGazeSample (gazeIn.getD st.lastGazeSample)
            then fgResp.map fun n => (n, adjustGaze (gazeIn.getD st.lastGazeSample) fovea fovea)
            else none) ∧
    (twostream_encode_frame fovea st gazeIn advanced bgResp fgResp).1.lastGazeSample
        = (if tsGazeChanged st.lastGazeSample (gazeIn.getD st.lastGazeSample)
            then gazeIn.getD st.lastGazeSample
            else st.lastGazeSample) := by
  by_cases hch : tsGazeChanged st.lastGazeSample (gazeIn.getD st.lastGazeSample) <;>
    cases advanced <;>
      simp [twostream_encode_frame, hch]

/-! ### Y4M header parsing (`fvideo/src/lib.rs`)

`parse_y4m_header` matches the header against the anchored regex
`^YUV4MPEG2\sW[0-9]+\sH[0-9]+\sF[0-9:]+.*` (no match: `ParseY4MError`),
parses width and height as `u32` (overflow: `ParseIntError`), splits the F
field on `:` and divides the first two parts as `f64`
(empty part: `ParseFloatError`; a missing second part indexes `ratio[1]`
out of bounds, which panics).  The regex's greedy character classes are
deterministic here because consecutive classes are disjoint, so each
capture is a maximal munch.  `f64` values of the digit-only numerator and
denominator are modelled exactly as rationals. -/

/-- The characters matched by the regex class `\s`. -/
def isWsChar (c : Char) : Bool :=
  c = ' ' || c = '\t' || c = '\n' || c = '\r' || c.toNat = 11 || c.toNat = 12

/-- Numeric value of a decimal digit character. -/
def digitVal (c : Char) : Nat := c.toNat - 48

/-- Value of a run of decimal digits, as `str::parse` computes it. -/
def digitsToNat (ds : List Char) : Nat := ds.foldl (fun a c => 10 * a + digitVal c) 0

/-- Match a literal prefix, returning the remainder. -/
def dropLit : List Char → List Char → Option (List Char)
  | [], cs => some cs
  | _ :: _, [] => none
  | l :: ls, c :: cs => if c = l then dropLit ls cs else none

/-- Match one `\s` character. -/
def expectWs : List Char → Option (List Char)
  | [] => none
  | c :: cs => if isWsChar c then some cs else none

/-- Match one literal character. -/
def expectChar (x : Char) : List Char → Option (List Char)
  | [] => none
  | c :: cs => if c = x then some cs else none

/-- Maximal munch of a nonempty run matching `p` (a greedy `[..]+`). -/
def munch (p : Char → Bool) (cs : List Char) : Option (List Char × List Char) :=
  match cs.takeWhile p with
  | [] => none
  | d :: ds => some (d :: ds, cs.dropWhile p)

/-- The regex class `[0-9:]` of the F field. -/
def isFrameChar (c : Char) : Bool := c.isDigit || c = ':'

/-- The captures `(width, height, frame)` of the Y4M header regex, or
`none` when the header does not match. -/
def y4mCaptures (cs : List Char) : Option (List Char × List Char × List Char) :=
  (dropLit "YUV4MPEG2".toList cs).bind fun cs1 =>
  (expectWs cs1).bind fun cs2 =>
  (expectChar 'W' cs2).bind fun cs3 =>
  (munch Char.isDigit cs3).bind fun p3 =>
  (expectWs p3.2).bind fun cs4 =>
  (expectChar 'H' cs4).bind fun cs5 =>
  (munch Char.isDigit cs5).bind fun p5 =>
  (expectWs p5.2).bind fun cs6 =>
  (expectChar 'F' cs6).bind fun cs7 =>
  (munch isFrameChar cs7).map fun p7 => (p3.1, p5.1, p7.1)

/-- Rust `str::split(':')`: split into parts at every colon, keeping empty
parts, with `[""]` for the empty string. -/
def splitColon : List Char → List (List Char)
  | [] => [[]]
  | c :: rest =>
    if c = ':' then [] :: splitColon rest
    else
      match splitColon rest with
      | [] => [[c]]
      | p :: ps => (c :: p) :: ps

/-- Result of `parse_y4m_header`, separating each typed error the Rust code
can return from the out-of-bounds panic on `ratio[1]`. -/
inductive Y4mResult where
  | ok (width height : Nat) (fps : ℚ)
  | errY4m
  | errInt
  | errFloat
  | panicked
deriving DecidableEq, Repr

/-- `f64` parse of a (digit-only) split part: fails exactly on the empty
string; the value of a digit run is modelled exactly. -/
def parseF64Digits (ds : List Char) : Option ℚ :=
  if ds.isEmpty then none else some (digitsToNat ds : ℚ)

/-- `parse_y4m_header` from `fvideo/src/lib.rs`. -/
def parse_y4m_header (cs : List Char) : Y4mResult :=
  match y4mCaptures cs with
  | none => .errY4m
  | some (ws, hs, fs) =>
    if 2 ^ 32 ≤ digitsToNat ws then .errInt
    else if 2 ^ 32 ≤ digitsToNat hs then .errInt
    else
      match splitColon fs with
      | [] => .panicked
      | p0 :: rest =>
        match parseF64Digits p0 with
        | none => .errFloat
        | some num =>
          match rest with
          | [] => .panicked
          | p1 :: _ =>
            match parseF64Digits p1 with
            | none => .errFloat
            | some den => .ok (digitsToNat ws) (digitsToNat hs) (num / den)

/-- A header of the regular form `YUV4MPEG2 W<ws> H<hs> F<ns>:<ds><rest>`. -/
def y4mHeaderOf (ws hs ns ds rest : List Char) : List Char :=
  "YUV4MPEG2".toList ++
    ' ' :: 'W' :: (ws ++ ' ' :: 'H' :: (hs ++ ' ' :: 'F' :: (ns ++ ':' :: (ds ++ rest))))

theorem dropLit_append (l cs : List Char) : dropLit l (l ++ cs) = some cs := by
  induction l with
  | nil => rfl
  | cons c t ih => simp [dropLit, ih]

theorem takeWhile_append_all (p : Char → Bool) (l l2 : List Char)
    (hl : ∀ c ∈ l, p c = true) (h2 : ∀ c ∈ l2.take 1, p c = false) :
    (l ++ l2).takeWhile p = l ∧ (l ++ l2).dropWhile p = l2 := by
  induction l with
  | nil =>
    simp only [List.nil_append]
    cases l2 with
    | nil => simp
    | cons c t =>
      have hc := h2 c (by simp)
      simp [List.takeWhile_cons, List.dropWhile_cons, hc]
  | cons c t ih =>
    have hc := hl c (by simp)
    have ht := ih fun x hx => hl x (by simp [hx])
    simp [List.takeWhile_cons, List.dropWhile_cons, hc, ht.1, ht.2]

theorem munch_append (p : Char → Bool) (l l2 : List Char) (hne : l ≠ [])
    (hl : ∀ c ∈ l, p c = true) (h2 : ∀ c ∈ l2.take 1, p c = false) :
    munch p (l ++ l2) = some (l, l2) := by
  have h := takeWhile_append_all p l l2 hl h2
  unfold munch
  rw [h.1, h.2]
  cases l with
  | nil => exact absurd rfl hne
  | cons c t => rfl

theorem splitColon_of_noColon (l : List Char) (hl : ∀ c ∈ l, ¬c = ':') :
    splitColon l = [l] := by
  induction l with
  | nil => rfl
  | cons c t ih =>
    have hc := hl c (by simp)
    have ht := ih fun x hx => hl x (by simp [hx])
    simp [splitColon, hc, ht]

theorem splitColon_append (l l2 : List Char) (hl : ∀ c ∈ l, ¬c = ':') :
    splitColon (l ++ ':' :: l2) = l :: splitColon l2 := by
  induction l with
  | nil => simp [splitColon]
  | cons c t ih =>
    have hc := hl c (by simp)
    have ht := ih fun x hx => hl x (by simp [hx])
    simp only [List.cons_append, splitColon, hc, if_false, ht]
    split <;> simp_all

theorem expectWs_space (l : List Char) : expectWs (' ' :: l) = some l := rfl

theorem expectChar_self (x : Char) (l : List Char) : expectChar x (x :: l) = some l := by
  simp [expectChar]

theorem y4mCaptures_form (ws hs ns ds rest : List Char)
    (hws : ws ≠ []) (hwsd : ∀ c ∈ ws, c.isDigit = true)
    (hhs : hs ≠ []) (hhsd : ∀ c ∈ hs, c.isDigit = true)
    (hns : ns ≠ []) (hnsd : ∀ c ∈ ns, c.isDigit = true)
    (hds : ds ≠ []) (hdsd : ∀ c ∈ ds, c.isDigit = true)
    (hrest : ∀ c ∈ rest.take 1, isFrameChar c = false) :
    y4mCaptures (y4mHeaderOf ws hs ns ds rest) = some (ws, hs, ns ++ ':' :: ds) := by
  have hmw : munch Char.isDigit
        (ws ++ ' ' :: 'H' :: (hs ++ ' ' :: 'F' :: (ns ++ ':' :: (ds ++ rest))))
      = some (ws, ' ' :: 'H' :: (hs ++ ' ' :: 'F' :: (ns ++ ':' :: (ds ++ rest)))) :=
    munch_append _ _ _ hws hwsd (by simp)
  have hmh : munch Char.isDigit (hs ++ ' ' :: 'F' :: (ns ++ ':' :: (ds ++ rest)))
      = some (hs, ' ' :: 'F' :: (ns ++ ':' :: (ds ++ rest))) :=
    munch_append _ _ _ hhs hhsd (by simp)
  have hmf : munch isFrameChar ((ns ++ ':' :: ds) ++ rest)
      = some (ns ++ ':' :: ds, rest) := by
    refine munch_append _ _ _ (by simp) (fun c hc => ?_) hrest
    rcases List.mem_append.mp hc with h | h
    · simp [isFrameChar, hnsd c h]
    · rcases List.mem_cons.mp h with h | h
      · simp [isFrameChar, h]
      · simp [isFrameChar, hdsd c h]
  unfold y4mCaptures y4mHeaderOf
  rw [dropLit_append]
  simp only [Option.some_bind, expectWs_space, expectChar_self, hmw, hmh]
  rw [show ns ++ ':' :: (ds ++ rest) = (ns ++ ':' :: ds) ++ rest by simp, hmf]
  rfl

/-- The generic parse of a well-formed Y4M header. -/
theorem parse_y4m_header_form (ws hs ns ds rest : List Char)
    (hws : ws ≠ []) (hwsd : ∀ c ∈ ws, c.isDigit = true)
    (hhs : hs ≠ []) (hhsd : ∀ c ∈ hs, c.isDigit = true)
    (hns : ns ≠ []) (hnsd : ∀ c ∈ ns, c.isDigit = true)
    (hds : ds ≠ []) (hdsd : ∀ c ∈ ds, c.isDigit = true)
    (hrest : ∀ c ∈ rest.take 1, isFrameChar c = false)
    (hw : digitsToNat ws < 2 ^ 32) (hh : digitsToNat hs < 2 ^ 32) :
    parse_y4m_header (y4mHeaderOf ws hs ns ds rest)
      = .ok (digitsToNat ws) (digitsToNat hs)
          ((digitsToNat ns : ℚ) / (digitsToNat ds : ℚ)) := by
  have hsplit : splitColon (ns ++ ':' :: ds) = [ns, ds] := by
    rw [splitColon_append ns ds fun c hc => by
      have := hnsd c hc
      intro heq
      rw [heq] at this
      exact absurd this (by decide)]
    rw [splitColon_of_noColon ds fun c hc => by
      have := hdsd c hc
      intro heq
      rw [heq] at this
      exact absurd this (by decide)]
  rw [parse_y4m_header,
    y4mCaptures_form ws hs ns ds rest hws hwsd hhs hhsd hns hnsd hds hdsd hrest]
  simp only [hsplit, parseF64Digits, List.isEmpty_eq_true, hns, hds,
    if_neg (not_le.mpr hw), if_neg (not_le.mpr hh)]
  simp [hns, hds]

/-- C7: a header of the form `YUV4MPEG2 W<n> H<n> F<num>:<den> ...` parses
to `(width, height, num/den)`; the two sample headers of the spec parse to
`(3840, 2160, 24)` and `(1920, 1080, 24000/1001)`; and a string not
matching that form returns the `ParseY4MError` result. -/
theorem parse_y4m_header_spec :
    (∀ ws hs ns ds rest : List Char,
      ws ≠ [] → (∀ c ∈ ws, c.isDigit = true) →
      hs ≠ [] → (∀ c ∈ hs, c.isDigit = true) →
      ns ≠ [] → (∀ c ∈ ns, c.isDigit = true) →
      ds ≠ [] → (∀ c ∈ ds, c.isDigit = true) →
      (∀ c ∈ rest.take 1, isFrameChar c = false) →
      digitsToNat ws < 2 ^ 32 → digitsToNat hs < 2 ^ 32 →
      parse_y4m_header (y4mHeaderOf ws hs ns ds rest)
        = .ok (digitsToNat ws) (digitsToNat hs)
            ((digitsToNat ns : ℚ) / (digitsToNat ds : ℚ))) ∧
    parse_y4m_header "YUV4MPEG2 W3840 H2160 F24:1 Ip A0:0 C420jpeg".toList
      = .ok 3840 2160 24 ∧
    parse_y4m_header "YUV4MPEG2 W1920 H1080 F24000:1001 Ip A0:0 C420jpeg".toList
      = .ok 1920 1080 (24000 / 1001) ∧
    (∀ cs : List Char, y4mCaptures cs = none → parse_y4m_header cs = .errY4m) := by
  refine ⟨parse_y4m_header_form, ?_, ?_, fun cs hc => by rw [parse_y4m_header, hc]⟩
  · have e1 : "YUV4MPEG2 W3840 H2160 F24:1 Ip A0:0 C420jpeg".toList
        = y4mHeaderOf ['3', '8', '4', '0'] ['2', '1', '6', '0'] ['2', '4'] ['1']
            " Ip A0:0 C420jpeg".toList := by decide
    rw [e1, parse_y4m_header_form _ _ _ _ _ (by decide) (by decide) (by decide)
      (by decide) (by decide) (by decide) (by decide) (by decide) (by decide)
      (by decide) (by decide)]
    simp only [show digitsToNat ['3', '8', '4', '0'] = 3840 from by decide,
      show digitsToNat ['2', '1', '6', '0'] = 2160 from by decide,
      show digitsToNat ['2', '4'] = 24 from by decide,
      show digitsToNat ['1'] = 1 from by decide, Y4mResult.ok.injEq]
    norm_num
  · have e2 : "YUV4MPEG2 W1920 H1080 F24000:1001 Ip A0:0 C420jpeg".toList
        = y4mHeaderOf ['1', '9', '2', '0'] ['1', '0', '8', '0']
            ['2', '4', '0', '0', '0'] ['1', '0', '0', '1']
            " Ip A0:0 C420jpeg".toList := by decide
    rw [e2, parse_y4m_header_form _ _ _ _ _ (by decide) (by decide) (by decide)
      (by decide) (by decide) (by decide) (by decide) (by decide) (by decide)
      (by decide) (by decide)]
    simp only [show digitsToNat ['1', '9', '2', '0'] = 1920 from by decide,
      show digitsToNat ['1', '0', '8', '0'] = 1080 from by decide,
      show digitsToNat ['2', '4', '0', '0', '0'] = 24000 from by decide,
      show digitsToNat ['1', '0', '0', '1'] = 1001 from by decide, Y4mResult.ok.injEq]
    norm_num

/-- Witness for C7: the generic form at `W9 H9 F2:4` with trailing
`" Ip"`. -/
theorem parse_y4m_header_spec_witness :
    (['9'] : List Char) ≠ [] ∧ (∀ c ∈ (['9'] : List Char), c.isDigit = true) ∧
    (['2'] : List Char) ≠ [] ∧ (∀ c ∈ (['2'] : List Char), c.isDigit = true) ∧
    (['4'] : List Char) ≠ [] ∧ (∀ c ∈ (['4'] : List Char), c.isDigit = true) ∧
    (∀ c ∈ ([' ', 'I', 'p'] : List Char).take 1, isFrameChar c = false) ∧
    digitsToNat ['9'] < 2 ^ 32 ∧
    parse_y4m_header (y4mHeaderOf ['9'] ['9'] ['2'] ['4'] [' ', 'I', 'p'])
      = .ok (digitsToNat ['9']) (digitsToNat ['9'])
          ((digitsToNat ['2'] : ℚ) / (digitsToNat ['4'] : ℚ)) :=
  ⟨by decide, by decide, by decide, by decide, by decide, by decide, by decide, by decide,
    parse_y4m_header_spec.1 ['9'] ['9'] ['2'] ['4'] [' ', 'I', 'p']
      (by decide) (by decide) (by decide) (by decide) (by decide) (by decide)
      (by decide) (by decide) (by decide) (by decide) (by decide)⟩

/-- C10: `parse_y4m_header` is not total: when the F field matched by
`[0-9:]+` contains no `:`, the split yields a single part and indexing
`ratio[1]` panics, instead of returning a typed error as the error-handling
design requires.  At the failing input `"YUV4MPEG2 W1 H1 F24 Ip"` the
function panics. -/
theorem parse_y4m_header_panics_without_colon :
    parse_y4m_header "YUV4MPEG2 W1 H1 F24 Ip".toList = .panicked := by decide

/-! ### ASC trace parsing (`eyelink-rs/src/ascparser.rs`)

`EyeSample::from_str` matches a line against the regex
`^\s*([0-9]+)\s+([0-9]+\.[0-9])\s+([0-9]+\.[0-9])\s+([0-9]+\.[0-9])\s+[\.]+`
(no match: `UnrecognizedString`), then parses the time as `u32` (overflow:
`ParseIntError`) and the coordinates as `f32`.  Again consecutive greedy
classes are disjoint, so captures are maximal munches; a fixed-point capture
is digits, a dot, and exactly one digit, whose `f32` parse cannot fail and
is modelled exactly as a rational.  `parse_asc` keeps the samples of the
lines that parse and silently skips every other line. -/

/-- Match one `\s` then greedily munch the rest of the run (`\s+`). -/
def munchWs1 : List Char → Option (List Char)
  | [] => none
  | c :: cs => if isWsChar c then some (cs.dropWhile isWsChar) else none

/-- Match `[0-9]+\.[0-9]`: digits, a dot, exactly one digit. -/
def munchFixed (cs : List Char) : Option ((List Char × Char) × List Char) :=
  (munch Char.isDigit cs).bind fun pds =>
  (expectChar '.' pds.2).bind fun cs2 =>
  match cs2 with
  | [] => none
  | d :: cs3 => if d.isDigit then some ((pds.1, d), cs3) else none

/-- The captures `(time, x, y, p)` of the eye-sample regex, or `none` when
the line does not match. -/
def ascCaptures (cs : List Char) :
    Option (List Char × (List Char × Char) × (List Char × Char) × (List Char × Char)) :=
  (munch Char.isDigit (cs.dropWhile isWsChar)).bind fun pt =>
  (munchWs1 pt.2).bind fun cs1 =>
  (munchFixed cs1).bind fun px =>
  (munchWs1 px.2).bind fun cs2 =>
  (munchFixed cs2).bind fun py =>
  (munchWs1 py.2).bind fun cs3 =>
  (munchFixed cs3).bind fun pp =>
  (munchWs1 pp.2).bind fun cs4 =>
  match cs4 with
  | '.' :: _ => some (pt.1, px.1, py.1, pp.1)
  | _ => none

/-- Result of `EyeSample::from_str`, separating the two error kinds the Rust
code can produce. -/
inductive AscResult where
  | ok (time : Nat) (x y p : ℚ)
  | unrecognized
  | errInt
deriving DecidableEq, Repr

/-- Exact value of a captured fixed-point number `<digits>.<digit>`. -/
def fixedVal (f : List Char × Char) : ℚ :=
  (digitsToNat f.1 : ℚ) + (digitVal f.2 : ℚ) / 10

/-- `EyeSample::from_str` from `ascparser.rs`. -/
def asc_from_str (cs : List Char) : AscResult :=
  match ascCaptures cs with
  | none => .unrecognized
  | some (ts, x, y, p) =>
    if 2 ^ 32 ≤ digitsToNat ts then .errInt
    else .ok (digitsToNat ts) (fixedVal x) (fixedVal y) (fixedVal p)

/-- `parse_asc` on the lines of a file: keep the parsed samples, drop every
line that does not parse. -/
def parse_asc (lines : List (List Char)) : List (Nat × ℚ × ℚ × ℚ) :=
  lines.filterMap fun l =>
    match asc_from_str l with
    | .ok t x y p => some (t, x, y, p)
    | _ => none

/-- A sample line of the regular form
`<ws><time><ws><x><ws><y><ws><p><ws>.<rest>` with nonempty whitespace
runs between the fields. -/
def ascLineOf (w0 : Nat) (ts : List Char) (w1 : Nat) (x : List Char × Char)
    (w2 : Nat) (y : List Char × Char) (w3 : Nat) (p : List Char × Char)
    (w4 : Nat) (rest : List Char) : List Char :=
  List.replicate w0 ' ' ++ (ts ++ (List.replicate (w1 + 1) ' ' ++
    (x.1 ++ '.' :: x.2 :: (List.replicate (w2 + 1) ' ' ++
      (y.1 ++ '.' :: y.2 :: (List.replicate (w3 + 1) ' ' ++
        (p.1 ++ '.' :: p.2 :: (List.replicate (w4 + 1) ' ' ++ '.' :: rest))))))))

theorem dropWhile_replicate_space (n : Nat) (l : List Char)
    (hl : ∀ c ∈ l.take 1, isWsChar c = false) :
    (List.replicate n ' ' ++ l).dropWhile isWsChar = l := by
  induction n with
  | zero =>
    cases l with
    | nil => rfl
    | cons c t =>
      have hc := hl c (by simp)
      simp [List.dropWhile_cons, hc]
  | succ n ih => simp [List.replicate_succ, List.dropWhile_cons, isWsChar, ih]

theorem munchWs1_replicate (k : Nat) (l : List Char)
    (hl : ∀ c ∈ l.take 1, isWsChar c = false) :
    munchWs1 (List.replicate (k + 1) ' ' ++ l) = some l := by
  simp [List.replicate_succ, munchWs1, show isWsChar ' ' = true from rfl,
    dropWhile_replicate_space k l hl]

theorem munchFixed_form (ds : List Char) (d : Char) (l2 : List Char)
    (hne : ds ≠ []) (hds : ∀ c ∈ ds, c.isDigit = true) (hd : d.isDigit = true) :
    munchFixed (ds ++ '.' :: (d :: l2)) = some ((ds, d), l2) := by
  rw [munchFixed, munch_append _ _ _ hne hds (by simp)]
  simp [Option.some_bind, expectChar_self, hd]

theorem not_ws_of_digit (c : Char) (h : c.isDigit = true) : isWsChar c = false := by
  have hn : 48 ≤ c.toNat ∧ c.toNat ≤ 57 := by
    unfold Char.isDigit at h
    simp only [Bool.and_eq_true, decide_eq_true_eq] at h
    exact h
  unfold isWsChar
  simp only [Bool.or_eq_false_iff, decide_eq_false_iff_not]
  refine ⟨⟨⟨⟨⟨?_, ?_⟩, ?_⟩, ?_⟩, ?_⟩, ?_⟩ <;>
    first
      | (intro hc; subst hc; exact absurd hn (by decide))
      | omega

theorem take_one_not_ws_of_digits (l : List Char) (tl : List Char)
    (hl : ∀ c ∈ l, c.isDigit = true) (hne : l ≠ []) :
    ∀ c ∈ (l ++ tl).take 1, isWsChar c = false := by
  cases l with
  | nil => exact absurd rfl hne
  | cons c t =>
    intro x hx
    rw [List.cons_append, List.take_succ_cons, List.take_zero] at hx
    rcases List.mem_singleton.mp hx with rfl
    exact not_ws_of_digit x (hl x (by simp))

theorem ascCaptures_form (w0 : Nat) (ts : List Char) (w1 : Nat)
    (x : List Char × Char) (w2 : Nat) (y : List Char × Char) (w3 : Nat)
    (p : List Char × Char) (w4 : Nat) (rest : List Char)
    (hts : ts ≠ []) (htsd : ∀ c ∈ ts, c.isDigit = true)
    (hx1 : x.1 ≠ []) (hx1d : ∀ c ∈ x.1, c.isDigit = true) (hx2 : x.2.isDigit = true)
    (hy1 : y.1 ≠ []) (hy1d : ∀ c ∈ y.1, c.isDigit = true) (hy2 : y.2.isDigit = true)
    (hp1 : p.1 ≠ []) (hp1d : ∀ c ∈ p.1, c.isDigit = true) (hp2 : p.2.isDigit = true) :
    ascCaptures (ascLineOf w0 ts w1 x w2 y w3 p w4 rest) = some (ts, x, y, p) := by
  unfold ascCaptures ascLineOf
  rw [dropWhile_replicate_space w0 _ (take_one_not_ws_of_digits ts _ htsd hts),
    munch_append _ _ _ hts htsd (by simp [List.replicate_succ])]
  simp only [Option.some_bind]
  rw [munchWs1_replicate w1 _ (take_one_not_ws_of_digits x.1 _ hx1d hx1)]
  simp only [Option.some_bind]
  rw [munchFixed_form x.1 x.2 _ hx1 hx1d hx2]
  simp only [Option.some_bind]
  rw [munchWs1_replicate w2 _ (take_one_not_ws_of_digits y.1 _ hy1d hy1)]
  simp only [Option.some_bind]
  rw [munchFixed_form y.1 y.2 _ hy1 hy1d hy2]
  simp only [Option.some_bind]
  rw [munchWs1_replicate w3 _ (take_one_not_ws_of_digits p.1 _ hp1d hp1)]
  simp only [Option.some_bind]
  rw [munchFixed_form p.1 p.2 _ hp1 hp1d hp2]
  simp only [Option.some_bind]
  rw [munchWs1_replicate w4 _ (by simp [isWsChar])]
  simp only [Option.some_bind]

theorem asc_from_str_form (w0 : Nat) (ts : List Char) (w1 : Nat)
    (x : List Char × Char) (w2 : Nat) (y : List Char × Char) (w3 : Nat)
    (p : List Char × Char) (w4 : Nat) (rest : List Char)
    (hts : ts ≠ []) (htsd : ∀ c ∈ ts, c.isDigit = true)
    (hx1 : x.1 ≠ []) (hx1d : ∀ c ∈ x.1, c.isDigit = true) (hx2 : x.2.isDigit = true)
    (hy1 : y.1 ≠ []) (hy1d : ∀ c ∈ y.1, c.isDigit = true) (hy2 : y.2.isDigit = true)
    (hp1 : p.1 ≠ []) (hp1d : ∀ c ∈ p.1, c.isDigit = true) (hp2 : p.2.isDigit = true)
    (htime : digitsToNat ts < 2 ^ 32) :
    asc_from_str (ascLineOf w0 ts w1 x w2 y w3 p w4 rest)
      = .ok (digitsToNat ts) (fixedVal x) (fixedVal y) (fixedVal p) := by
  rw [asc_from_str, ascCaptures_form w0 ts w1 x w2 y w3 p w4 rest hts htsd
    hx1 hx1d hx2 hy1 hy1d hy2 hp1 hp1d hp2]
  dsimp only
  rw [if_neg (not_le.mpr htime)]

/-- C8 counterexample: the line `"4294967296 1.0 1.0 1.0 ."` is of the
sample form `<time> <x> <y> <pupil>` with trailing dots, yet
`EyeSample::from_str` returns a `ParseIntError` (the time overflows `u32`)
rather than parsing it into `(time, x, y, p)` — refuting the claim that
every line of that form parses. -/
theorem asc_from_str_time_overflow :
    asc_from_str "4294967296 1.0 1.0 1.0 .".toList = .errInt := by decide

/-- C8 (amended): a sample line of the form `<time> <x> <y> <pupil>` with
trailing dots parses into `(time, x, y, p)` provided the time fits in
`u32`; the spec's example line parses to
`(4054086, 980.4, 556.0, 606.0)`; the `MSG` line does not parse
(`UnrecognizedString`, as for every line the regex rejects); and
`parse_asc` silently skips every line that does not parse. -/
theorem asc_parse_spec :
    (∀ (w0 : Nat) (ts : List Char) (w1 : Nat) (x : List Char × Char)
      (w2 : Nat) (y : List Char × Char) (w3 : Nat) (p : List Char × Char)
      (w4 : Nat) (rest : List Char),
      ts ≠ [] → (∀ c ∈ ts, c.isDigit = true) →
      x.1 ≠ [] → (∀ c ∈ x.1, c.isDigit = true) → x.2.isDigit = true →
      y.1 ≠ [] → (∀ c ∈ y.1, c.isDigit = true) → y.2.isDigit = true →
      p.1 ≠ [] → (∀ c ∈ p.1, c.isDigit = true) → p.2.isDigit = true →
      digitsToNat ts < 2 ^ 32 →
      asc_from_str (ascLineOf w0 ts w1 x w2 y w3 p w4 rest)
        = .ok (digitsToNat ts) (fixedVal x) (fixedVal y) (fixedVal p)) ∧
    asc_from_str "4054086   980.4   556.0   606.0 ... ".toList
      = .ok 4054086 (980.4 : ℚ) (556.0 : ℚ) (606.0 : ℚ) ∧
    asc_from_str "MSG 4054085 GAZE_COORDS 0.00 0.00 1919.00 1079.00".toList
      = .unrecognized ∧
    (∀ cs : List Char, ascCaptures cs = none → asc_from_str cs = .unrecognized) ∧
    (∀ (l : List Char) (rest : List (List Char)),
      (∀ t x y p, asc_from_str l ≠ .ok t x y p) →
      parse_asc (l :: rest) = parse_asc rest) := by
  refine ⟨asc_from_str_form, ?_, by decide,
    fun cs hc => by rw [asc_from_str, hc], fun l rest h => ?_⟩
  · have e3 : "4054086   980.4   556.0   606.0 ... ".toList
        = ascLineOf 0 ['4', '0', '5', '4', '0', '8', '6'] 2 (['9', '8', '0'], '4')
            2 (['5', '5', '6'], '0') 2 (['6', '0', '6'], '0') 0
            ['.', '.', ' '] := by decide
    rw [e3, asc_from_str_form _ _ _ _ _ _ _ _ _ _ (by decide) (by decide)
      (by decide) (by decide) (by decide) (by decide) (by decide) (by decide)
      (by decide) (by decide) (by decide) (by decide)]
    simp only [show digitsToNat ['4', '0', '5', '4', '0', '8', '6'] = 4054086 from by decide,
      fixedVal,
      show digitsToNat ['9', '8', '0'] = 980 from by decide,
      show digitsToNat ['5', '5', '6'] = 556 from by decide,
      show digitsToNat ['6', '0', '6'] = 606 from by decide,
      show digitVal '4' = 4 from by decide,
      show digitVal '0' = 0 from by decide, AscResult.ok.injEq]
    norm_num
  · cases hveq : asc_from_str l with
    | ok t x y p => exact absurd hveq (h t x y p)
    | unrecognized => simp [parse_asc, List.filterMap_cons, hveq]
    | errInt => simp [parse_asc, List.filterMap_cons, hveq]

/-- Witness for C8: the generic form at the line `1 2.3 4.5 6.7 .`. -/
theorem asc_parse_spec_witness :
    (['1'] : List Char) ≠ [] ∧ (∀ c ∈ (['1'] : List Char), c.isDigit = true) ∧
    ((['2'], '3') : List Char × Char).1 ≠ [] ∧
    ((['2'], '3') : List Char × Char).2.isDigit = true ∧
    digitsToNat ['1'] < 2 ^ 32 ∧
    asc_from_str
        (ascLineOf 0 ['1'] 0 (['2'], '3') 0 (['4'], '5') 0 (['6'], '7') 0 [])
      = .ok (digitsToNat ['1']) (fixedVal (['2'], '3')) (fixedVal (['4'], '5'))
          (fixedVal (['6'], '7')) :=
  ⟨by decide, by decide, by decide, by decide, by decide,
    asc_parse_spec.1 0 ['1'] 0 (['2'], '3') 0 (['4'], '5') 0 (['6'], '7') 0 []
      (by decide) (by decide) (by decide) (by decide) (by decide) (by decide)
      (by decide) (by decide) (by decide) (by decide) (by decide) (by decide)⟩

/-! ### The alpha-blend mask (`compute_alpha` in `fvideo/src/client.rs`)

`compute_alpha(F)` pushes, for `j` then `i` in `0..F`, the value
`min(255, round(896 * exp(-((i - F/2)^2 + (j - F/2)^2) / (2 * (F/5)^2))))
as u8` (the saturating `u8` cast of a nonnegative rounded value is the same
`min` with 255).  The `f32` computation is modelled over the reals; the
inner squared distance is exact integer arithmetic in the Rust code and is
kept as an `Int`. -/

/-- The integer squared distance `(i - F/2)^2 + (j - F/2)^2` from the patch
center, computed in `i32` arithmetic. -/
def sqDist (F i j : Nat) : Int :=
  ((i : Int) - ((F / 2 : Nat) : Int)) ^ 2 + ((j : Int) - ((F / 2 : Nat) : Int)) ^ 2

/-- One entry of the alpha mask: the 2D Gaussian scaled by 896, rounded,
and clamped to `[0, 255]`. -/
noncomputable def alphaEntry (F i j : Nat) : Nat :=
  min 255 (round ((896 : ℝ) * Real.exp
    (-(((sqDist F i j : Int) : ℝ) / (2 * ((F : ℝ) / 5) ^ 2))))).toNat

/-- `compute_alpha` from `client.rs`: row-major (`j` outer, `i` inner)
list of the `F x F` mask entries. -/
noncomputable def compute_alpha (F : Nat) : List Nat :=
  (List.range F).flatMap fun j => (List.range F).map fun i => alphaEntry F i j

theorem bind_blocks_getD {α : Type} (f : Nat → List α) (F : Nat) (dflt : α)
    (hlen : ∀ x, (f x).length = F) (js : List Nat) (j i : Nat)
    (hi : i < F) (hj : j < js.length) :
    (js.flatMap f).getD (j * F + i) dflt = (f (js.getD j 0)).getD i dflt := by
  induction js generalizing j with
  | nil => exact absurd hj (by simp)
  | cons a tl ih =>
    match j with
    | 0 =>
      rw [List.flatMap_cons, Nat.zero_mul, Nat.zero_add]
      rw [List.getD_append _ _ _ _ (by rw [hlen]; exact hi)]
      rfl
    | k + 1 =>
      rw [List.flatMap_cons]
      have hge : (f a).length ≤ (k + 1) * F + i := by
        rw [hlen]; calc F ≤ (k + 1) * F := Nat.le_mul_of_pos_left F (Nat.succ_pos k)
          _ ≤ (k + 1) * F + i := Nat.le_add_right _ _
      rw [List.getD_append_right _ _ _ _ hge, hlen]
      have harith : (k + 1) * F + i - F = k * F + i := by ring_nf; omega
      rw [harith, ih k (by simpa using hj)]
      rfl

theorem compute_alpha_getD (F i j : Nat) (hi : i < F) (hj : j < F) :
    (compute_alpha F).getD (j * F + i) 0 = alphaEntry F i j := by
  unfold compute_alpha
  rw [bind_blocks_getD _ F 0 (fun x => by simp) (List.range F) j i hi (by simpa using hj)]
  have hjv : (List.range F).getD j 0 = j := by
    rw [List.getD_eq_getElem?_getD, List.getElem?_range hj]; rfl
  rw [hjv, List.getD_eq_getElem?_getD, List.getElem?_map, List.getElem?_range hi]
  rfl

theorem alphaEntry_le (F i j : Nat) : alphaEntry F i j ≤ 255 :=
  min_le_left _ _

theorem compute_alpha_entries_le (F n : Nat) : (compute_alpha F).getD n 0 ≤ 255 := by
  rw [List.getD_eq_getElem?_getD]
  cases hn : (compute_alpha F)[n]? with
  | none => simp
  | some v =>
    have hv : v ∈ compute_alpha F := List.getElem?_mem hn
    unfold compute_alpha at hv
    simp only [List.mem_flatMap, List.mem_map] at hv
    obtain ⟨j, _, i, _, rfl⟩ := hv
    simpa using alphaEntry_le F i j

/-- C6: the precomputed alpha mask has length `F^2`; every entry equals
`min(255, round(896 * exp(-((i - F/2)^2 + (j - F/2)^2) / (2 * (F/5)^2))))`;
the mask is symmetric about the patch center on both axes; and it attains
its maximum at the center entry, which equals 255 (all entries are at most
255). -/
theorem compute_alpha_spec :
    (∀ F : Nat, (compute_alpha F).length = F ^ 2) ∧
    (∀ F i j : Nat, i < F → j < F →
      (compute_alpha F).getD (j * F + i) 0
        = (min 255 (round ((896 : ℝ) * Real.exp
            (-((((i : ℝ) - ((F / 2 : Nat) : ℝ)) ^ 2 + ((j : ℝ) - ((F / 2 : Nat) : ℝ)) ^ 2)
              / (2 * ((F : ℝ) / 5) ^ 2))))).toNat)) ∧
    (∀ F j k : Nat, Even F → j < F → k ≤ F / 2 → F / 2 + k < F →
      (compute_alpha F).getD (j * F + (F / 2 + k)) 0
        = (compute_alpha F).getD (j * F + (F / 2 - k)) 0) ∧
    (∀ F i k : Nat, Even F → i < F → k ≤ F / 2 → F / 2 + k < F →
      (compute_alpha F).getD ((F / 2 + k) * F + i) 0
        = (compute_alpha F).getD ((F / 2 - k) * F + i) 0) ∧
    (∀ F : Nat, 0 < F → Even F →
      (compute_alpha F).getD ((F / 2) * F + F / 2) 0 = 255 ∧
      ∀ n : Nat, (compute_alpha F).getD n 0 ≤ 255) := by
  have hsq : ∀ (F i j : Nat), (((sqDist F i j : Int) : ℝ))
      = ((i : ℝ) - ((F / 2 : Nat) : ℝ)) ^ 2 + ((j : ℝ) - ((F / 2 : Nat) : ℝ)) ^ 2 := by
    intro F i j
    unfold sqDist
    simp only [Int.cast_add, Int.cast_pow, Int.cast_sub, Int.cast_natCast]
  have hsym : ∀ (F k : Nat), k ≤ F / 2 →
      (((F / 2 + k : Nat) : Int) - ((F / 2 : Nat) : Int)) ^ 2
        = (((F / 2 - k : Nat) : Int) - ((F / 2 : Nat) : Int)) ^ 2 := by
    intro F k hk
    rw [Int.ofNat_sub hk]
    push_cast
    ring
  refine ⟨fun F => ?_, fun F i j hi hj => ?_, fun F j k _hF hj hk hik => ?_,
    fun F i k _hF hi hk hik => ?_, fun F hF _hFe => ⟨?_, fun n => compute_alpha_entries_le F n⟩⟩
  · unfold compute_alpha
    rw [List.length_flatMap]
    have hconst : ((List.range F).map fun j =>
        ((List.range F).map fun i => alphaEntry F i j).length)
          = (List.range F).map fun _ => F := by
      refine List.map_congr_left fun j _ => by simp
    simp only [Function.comp_def]
    rw [hconst, List.map_const', List.length_range, List.sum_replicate,
      smul_eq_mul, pow_two]
  · rw [compute_alpha_getD F i j hi hj]
    unfold alphaEntry
    rw [hsq]
  · have h2 : F / 2 - k < F := by omega
    rw [compute_alpha_getD F (F / 2 + k) j hik hj,
      compute_alpha_getD F (F / 2 - k) j h2 hj]
    unfold alphaEntry sqDist
    rw [hsym F k hk]
  · have h2 : F / 2 - k < F := by omega
    rw [compute_alpha_getD F i (F / 2 + k) hi hik,
      compute_alpha_getD F i (F / 2 - k) hi h2]
    unfold alphaEntry sqDist
    rw [hsym F k hk]
  · have hc : F / 2 < F := by omega
    rw [compute_alpha_getD F (F / 2) (F / 2) hc hc]
    unfold alphaEntry
    have hzero : sqDist F (F / 2) (F / 2) = 0 := by
      unfold sqDist; ring
    rw [hzero]
    norm_num [Real.exp_zero]

/-- Witness for C6: horizontal symmetry at `F = 4`, `j = 1`, `k = 1`. -/
theorem compute_alpha_spec_witness :
    Even 4 ∧ 1 < 4 ∧ 1 ≤ 4 / 2 ∧ 4 / 2 + 1 < 4 ∧
      (compute_alpha 4).getD (1 * 4 + (4 / 2 + 1)) 0
        = (compute_alpha 4).getD (1 * 4 + (4 / 2 - 1)) 0 :=
  ⟨by decide, by decide, by decide, by decide,
    compute_alpha_spec.2.2.1 4 1 1 (by decide) (by decide) (by decide) (by decide)⟩

/-! ### Gaze delivery (`FvideoClient::gaze_sample` in `fvideo/src/client.rs`)

Each call obtains a reading (a fresh mouse position when an event is
pending, otherwise a copy of the back of the internal queue), stamps it
with the current instant and the next `seqno`, pushes it to the back of the
queue, then pops the front — unconditionally when no artificial delay is
configured, and only once the front sample's `time` is at least `delay_ms`
old otherwise — and returns the (new) front of the queue.  Instants are
modelled as `Nat`; the caller supplies the current instant `now` per call,
non-decreasing along a run. -/

/-- Client state relevant to `gaze_sample`: the running `seqno` counter,
the internal sample queue (front first) and the configured delay. -/
structure ClientGazeState where
  seqno : Nat
  queue : List GazeSample
  delay : Option Nat
deriving DecidableEq, Repr

/-- The state established by `FvideoClient::new`: one initial sample at the
display/video center with `seqno` 0. -/
def initClientState (disp src : Dims) (t0 : Nat) (delay : Option Nat) :
    ClientGazeState :=
  ⟨0, [⟨t0, 0, disp.width, disp.height, disp.width / 2, disp.height / 2,
      src.width / 2, src.height / 2, src.width / 2 / 16, src.height / 2 / 16⟩],
    delay⟩

/-- One call of `gaze_sample`.  `reading` is the fresh mouse position when
the event pump delivered one, `none` otherwise (reuse the back of the
queue). -/
def gazeSampleStep (disp src : Dims) (st : ClientGazeState) (now : Nat)
    (reading : Option (Nat × Nat)) : ClientGazeState × GazeSample :=
  let base :=
    match reading with
    | some (dx, dy) => mouseGazeSample disp src 0 st.seqno dx dy
    | none => st.queue.getLast?.getD default
  let g := { base with time := now, seqno := st.seqno }
  let q1 := st.queue ++ [g]
  let q2 :=
    match st.delay with
    | some d => if d ≤ now - (q1.head?.getD default).time then q1.tail else q1
    | none => q1.tail
  (⟨st.seqno + 1, q2, st.delay⟩, q2.head?.getD default)

/-- Run `gaze_sample` over a list of `(now, reading)` inputs, collecting
the returned samples. -/
def gazeRun (disp src : Dims) (st : ClientGazeState) :
    List (Nat × Option (Nat × Nat)) → List GazeSample
  | [] => []
  | (now, rd) :: rest =>
    let p := gazeSampleStep disp src st now rd
    p.2 :: gazeRun disp src p.1 rest

/-- Delivery order on gaze samples: `seqno` and `time` both no smaller. -/
def gsLe (a b : GazeSample) : Prop := a.seqno ≤ b.seqno ∧ a.time ≤ b.time

instance (a b : GazeSample) : Decidable (gsLe a b) := by
  unfold gsLe; infer_instance

/-- C4 counterexample: with an artificial delay of 10 ms, two successive
`gaze_sample` calls at instants 1 and 2 both return the still-delayed
initial sample, so the delivered `seqno` values are `[0, 0]` — not
strictly increasing as the claim states. -/
theorem gaze_sample_seqno_not_strictly_increasing :
    ((gazeRun ⟨100, 100⟩ ⟨100, 100⟩
        (initClientState ⟨100, 100⟩ ⟨100, 100⟩ 0 (some 10))
        [(1, some (5, 5)), (2, some (6, 6))]).map GazeSample.seqno = [0, 0]) ∧
      ¬((gazeRun ⟨100, 100⟩ ⟨100, 100⟩
            (initClientState ⟨100, 100⟩ ⟨100, 100⟩ 0 (some 10))
            [(1, some (5, 5)), (2, some (6, 6))]).getD 0 default).seqno <
        ((gazeRun ⟨100, 100⟩ ⟨100, 100⟩
            (initClientState ⟨100, 100⟩ ⟨100, 100⟩ 0 (some 10))
            [(1, some (5, 5)), (2, some (6, 6))]).getD 1 default).seqno := by
  constructor <;> decide

/-- Characterization of one `gaze_sample` call: a sample `G` stamped with
`now` and the current counter is pushed to the back; the queue either keeps
its front or pops it (always pops when no delay is configured); the
returned sample is the front of the resulting queue. -/
theorem gazeSampleStep_char (disp src : Dims) (st : ClientGazeState)
    (now : Nat) (rd : Option (Nat × Nat)) :
    ∃ G : GazeSample, G.seqno = st.seqno ∧ G.time = now ∧
      (gazeSampleStep disp src st now rd).1.seqno = st.seqno + 1 ∧
      (gazeSampleStep disp src st now rd).1.delay = st.delay ∧
      ((gazeSampleStep disp src st now rd).1.queue = st.queue ++ [G] ∨
        (gazeSampleStep disp src st now rd).1.queue = (st.queue ++ [G]).tail) ∧
      (st.delay = none →
        (gazeSampleStep disp src st now rd).1.queue = (st.queue ++ [G]).tail) ∧
      (gazeSampleStep disp src st now rd).2
        = (gazeSampleStep disp src st now rd).1.queue.head?.getD default := by
  refine ⟨{ (match rd with
      | some (dx, dy) => mouseGazeSample disp src 0 st.seqno dx dy
      | none => st.queue.getLast?.getD default) with
        time := now, seqno := st.seqno }, rfl, rfl, rfl, rfl, ?_, ?_, rfl⟩ <;>
    · unfold gazeSampleStep
      dsimp only
      cases hd : st.delay with
      | none => simp
      | some d =>
        dsimp only
        split <;> simp

theorem queue_append_chain (q : List GazeSample) (g : GazeSample)
    (ctr t : Nat) (hch : List.Chain' gsLe q)
    (hb : ∀ x ∈ q, x.seqno ≤ ctr ∧ x.time ≤ t)
    (hgs : ctr ≤ g.seqno) (hgt : t ≤ g.time) :
    List.Chain' gsLe (q ++ [g]) := by
  rw [List.chain'_append]
  refine ⟨hch, List.chain'_singleton g, fun x hx y hy => ?_⟩
  have hxm : x ∈ q := List.mem_of_mem_getLast? hx
  rcases (show g = y by simpa using hy) with rfl
  exact ⟨le_trans (hb x hxm).1 hgs, le_trans (hb x hxm).2 hgt⟩

/-- The step preserves the queue invariant and delivers in `gsLe` order. -/
theorem gazeSampleStep_inv (disp src : Dims) (st : ClientGazeState)
    (now : Nat) (rd : Option (Nat × Nat)) (t : Nat)
    (hne : st.queue ≠ []) (hch : List.Chain' gsLe st.queue)
    (hb : ∀ x ∈ st.queue, x.seqno ≤ st.seqno ∧ x.time ≤ t) (ht : t ≤ now) :
    (gazeSampleStep disp src st now rd).1.queue ≠ [] ∧
      List.Chain' gsLe (gazeSampleStep disp src st now rd).1.queue ∧
      (∀ x ∈ (gazeSampleStep disp src st now rd).1.queue,
        x.seqno ≤ (gazeSampleStep disp src st now rd).1.seqno ∧ x.time ≤ now) ∧
      (gazeSampleStep disp src st now rd).2
        = (gazeSampleStep disp src st now rd).1.queue.head?.getD default ∧
      gsLe (st.queue.head?.getD default) (gazeSampleStep disp src st now rd).2 := by
  obtain ⟨G, hGs, hGt, hseq, _hdel, hq12, _hnone, hout⟩ :=
    gazeSampleStep_char disp src st now rd
  obtain ⟨h, qt, hqe⟩ : ∃ h qt, st.queue = h :: qt := by
    cases hq : st.queue with
    | nil => exact absurd hq hne
    | cons a l => exact ⟨a, l, rfl⟩
  have hch1 : List.Chain' gsLe (st.queue ++ [G]) :=
    queue_append_chain st.queue G st.seqno t hch hb (le_of_eq hGs.symm)
      (le_trans ht (le_of_eq hGt.symm))
  have hb1 : ∀ x ∈ st.queue ++ [G], x.seqno ≤ st.seqno + 1 ∧ x.time ≤ now := by
    intro x hx
    rcases List.mem_append.mp hx with hxq | hxg
    · exact ⟨le_trans (hb x hxq).1 (Nat.le_succ _), le_trans (hb x hxq).2 ht⟩
    · have : x = G := by simpa using hxg
      subst this
      exact ⟨hGs ▸ Nat.le_succ _, le_of_eq hGt⟩
  have hmemq : ∀ x ∈ (gazeSampleStep disp src st now rd).1.queue,
      x ∈ st.queue ++ [G] := by
    intro x hx
    rcases hq12 with hq | hq
    · exact hq ▸ hx
    · exact List.mem_of_mem_tail (hq ▸ hx)
  refine ⟨?_, ?_, fun x hx => hseq ▸ hb1 x (hmemq x hx), hout, ?_⟩
  · rcases hq12 with hq | hq <;> rw [hq, hqe] <;> cases qt <;> simp
  · rcases hq12 with hq | hq
    · exact hq ▸ hch1
    · exact hq ▸ hch1.tail
  · rw [hout]
    rcases hq12 with hq | hq
    · rw [hq, hqe, List.cons_append]
      exact ⟨le_refl _, le_refl _⟩
    · rw [hq, hqe, List.cons_append, List.tail_cons]
      cases hqt : qt with
      | nil =>
        simp only [hqe, List.head?_cons, Option.getD_some, List.nil_append,
          List.head?_cons]
        have hh := hb h (by rw [hqe]; exact List.mem_cons_self h qt)
        exact ⟨hGs ▸ hh.1, hGt ▸ le_trans hh.2 ht⟩
      | cons r rt =>
        simp only [hqe, List.head?_cons, Option.getD_some, List.cons_append,
          List.head?_cons]
        have := hch
        rw [hqe, hqt, List.chain'_cons] at this
        exact this.1

/-- Along a run with non-decreasing instants, the head of the queue and all
delivered samples form a `gsLe` chain. -/
theorem gazeRun_chain (disp src : Dims)
    (inputs : List (Nat × Option (Nat × Nat))) (st : ClientGazeState) (t : Nat)
    (hne : st.queue ≠ []) (hch : List.Chain' gsLe st.queue)
    (hb : ∀ x ∈ st.queue, x.seqno ≤ st.seqno ∧ x.time ≤ t)
    (hmono : List.Chain (fun a b => a ≤ b) t (inputs.map Prod.fst)) :
    List.Chain' gsLe
      ((st.queue.head?.getD default) :: gazeRun disp src st inputs) := by
  induction inputs generalizing st t with
  | nil => exact List.chain'_singleton _
  | cons p rest ih =>
    obtain ⟨now, rd⟩ := p
    rw [List.map_cons, List.chain_cons] at hmono
    obtain ⟨htn, hrest⟩ := hmono
    obtain ⟨hne1, hch1, hb1, hout, hle⟩ :=
      gazeSampleStep_inv disp src st now rd t hne hch hb htn
    rw [show gazeRun disp src st ((now, rd) :: rest)
        = (gazeSampleStep disp src st now rd).2
          :: gazeRun disp src (gazeSampleStep disp src st now rd).1 rest from rfl]
    refine List.chain'_cons.mpr ⟨hle, ?_⟩
    have hrec := ih (gazeSampleStep disp src st now rd).1 now hne1 hch1 hb1 hrest
    rw [hout]
    exact hrec

/-- Without an artificial delay, the queue always holds exactly one sample
and the run delivers the fresh sample of every call, so the delivered
`seqno` values are `ctr, ctr+1, ...`. -/
theorem gazeRun_seqnos_nodelay (disp src : Dims)
    (inputs : List (Nat × Option (Nat × Nat))) (st : ClientGazeState)
    (hq : ∃ h : GazeSample, st.queue = [h]) (hd : st.delay = none) :
    (gazeRun disp src st inputs).map GazeSample.seqno
      = List.range' st.seqno inputs.length := by
  induction inputs generalizing st with
  | nil => rfl
  | cons p rest ih =>
    obtain ⟨now, rd⟩ := p
    obtain ⟨h, hqe⟩ := hq
    obtain ⟨G, hGs, _hGt, hseq, hdel, _hq12, hnone, hout⟩ :=
      gazeSampleStep_char disp src st now rd
    have hqnew : (gazeSampleStep disp src st now rd).1.queue = [G] := by
      rw [hnone hd, hqe]; rfl
    have hrec := ih (gazeSampleStep disp src st now rd).1 ⟨G, hqnew⟩ (hdel ▸ hd)
    rw [show gazeRun disp src st ((now, rd) :: rest)
        = (gazeSampleStep disp src st now rd).2
          :: gazeRun disp src (gazeSampleStep disp src st now rd).1 rest from rfl]
    rw [List.map_cons, hrec, hseq, hout, hqnew]
    simp only [List.head?_cons, Option.getD_some, hGs]
    rw [List.length_cons, List.range'_succ]

/-- C4 (amended): along any run of `gaze_sample` with non-decreasing
instants, the delivered samples have non-decreasing `seqno` and
non-decreasing `time`; when no artificial delay is configured the
delivered `seqno` values are exactly `0, 1, 2, ...` — strictly
increasing.  (With a delay configured, successive calls can deliver the
same held-back front sample, so strict increase fails in general.) -/
theorem gaze_sample_monotonic_spec :
    (∀ (disp src : Dims) (t0 : Nat) (delay : Option Nat)
      (inputs : List (Nat × Option (Nat × Nat))),
      List.Chain (fun a b => a ≤ b) t0 (inputs.map Prod.fst) →
      List.Chain' gsLe
        (gazeRun disp src (initClientState disp src t0 delay) inputs)) ∧
    (∀ (disp src : Dims) (t0 : Nat)
      (inputs : List (Nat × Option (Nat × Nat))),
      (gazeRun disp src (initClientState disp src t0 none) inputs).map
          GazeSample.seqno
        = List.range inputs.length) := by
  constructor
  · intro disp src t0 delay inputs hmono
    have hch := gazeRun_chain disp src inputs (initClientState disp src t0 delay)
      t0 (by simp [initClientState]) (List.chain'_singleton _)
      (by
        intro x hx
        simp only [initClientState, List.mem_singleton] at hx
        subst hx
        exact ⟨le_refl _, le_refl _⟩)
      hmono
    exact hch.tail
  · intro disp src t0 inputs
    rw [gazeRun_seqnos_nodelay disp src inputs _ ⟨_, rfl⟩ rfl,
      List.range_eq_range']
    rfl

/-- Witness for C4: a three-call run with instants `0, 1, 2` and a 5 ms
delay configured. -/
theorem gaze_sample_monotonic_spec_witness :
    List.Chain (fun a b => a ≤ b) 0
        ((([(0, some (5, 5)), (1, none), (2, some (9, 9))] :
          List (Nat × Option (Nat × Nat))).map Prod.fst)) ∧
      List.Chain' gsLe
        (gazeRun ⟨200, 200⟩ ⟨100, 100⟩
          (initClientState ⟨200, 200⟩ ⟨100, 100⟩ 0 (some 5))
          [(0, some (5, 5)), (1, none), (2, some (9, 9))]) :=
  ⟨by simp [List.chain_cons],
    gaze_sample_monotonic_spec.1 ⟨200, 200⟩ ⟨100, 100⟩ 0 (some 5)
      [(0, some (5, 5)), (1, none), (2, some (9, 9))]
      (by simp [List.chain_cons])⟩

/-! ### The foveation cropper (`crop_x264_pic` in `twostreamserver.rs`)

`crop_x264_pic` computes an even top-left `(left, top)` centered on gaze
(bumping `p_x`/`p_y` by one when the centered coordinate is odd), then for
each of the three planes copies `fovea / csp` rows of `size` bytes from the
source plane (a linear byte buffer of `plane_size` bytes addressed through
raw pointers; offsets may run outside the buffer, so planes are modelled as
total functions on `Int` addresses) into the destination plane.  `size` is
the destination stride clipped on the right against the source stride.  A
row whose source addresses end at or before the buffer start is skipped; a
row that straddles the buffer start is copied only from byte `|left|` on;
every other row is copied in full; after each row the loop stops if the
advanced source pointer passed the end of the buffer.  Rust `i32 / ` is
truncating division, `Int.tdiv`. -/

/-- A planar YUV picture: three byte planes addressed relative to each
plane's base pointer (reads outside `[0, plane_size)` reach neighbouring
allocations and return whatever the model's function says). -/
structure YuvPic where
  p0 : Int → Nat
  p1 : Int → Nat
  p2 : Int → Nat

/-- The crop's top coordinate: `p_y - height/2`, bumped to even. -/
def cropTop (p h : Nat) : Int :=
  let n := (p : Int) - (h : Int) / 2
  if n % 2 = 0 then n else n + 1

/-- The crop's left coordinate: `p_x - width/2`, bumped to even. -/
def cropLeft (p w : Nat) : Int :=
  let n := (p : Int) - (w : Int) / 2
  if n % 2 = 0 then n else n + 1

/-- `ptr::copy_nonoverlapping` of `n` bytes from source offset `sOff` to
destination offset `dOff` (no-op for `n ≤ 0`). -/
def copyRange (src dst : Int → Nat) (sOff dOff n : Int) : Int → Nat :=
  fun a => if dOff ≤ a ∧ a < dOff + n then src (sOff + (a - dOff)) else dst a

/-- The body of one loop iteration: skip the row when it ends at or before
the buffer start, clip it at `|left|` when it straddles the buffer start,
otherwise copy `size` bytes. -/
def cropRowWrite (src : Int → Nat) (size left : Int) (srcOff dstOff : Int)
    (dst : Int → Nat) : Int → Nat :=
  if srcOff + size ≤ 0 then dst
  else if srcOff < 0 then
    copyRange src dst (srcOff + |left|) (dstOff + |left|) (size - |left|)
  else copyRange src dst srcOff dstOff size

/-- The row loop of `crop_x264_pic`: run the iteration body for each row,
stopping when the advanced source offset passes `planeSize`. -/
def cropRows (src : Int → Nat) (size left srcStride fgStride planeSize : Int) :
    Nat → Int → Int → (Int → Nat) → (Int → Nat)
  | 0, _, _, dst => dst
  | r + 1, srcOff, dstOff, dst =>
    if planeSize < srcOff + srcStride then
      cropRowWrite src size left srcOff dstOff dst
    else
      cropRows src size left srcStride fgStride planeSize r
        (srcOff + srcStride) (dstOff + fgStride)
        (cropRowWrite src size left srcOff dstOff dst)

/-- The starting source offset of the copy:
`stride * top / csp + left / csp` in truncating `i32` division. -/
def cropOffset (stride csp top left : Int) : Int :=
  Int.tdiv (stride * top) csp + Int.tdiv left csp

/-- The per-row byte count: the destination stride, clipped on the right
against the source stride when `(left + width) / csp` overruns it. -/
def cropSize (stride fgStride csp left width : Int) : Int :=
  if stride < Int.tdiv (left + width) csp then
    fgStride - (Int.tdiv (left + width) csp - stride)
  else fgStride

/-- The copy of one plane in `crop_x264_pic`. -/
def cropPlane (src dst : Int → Nat) (stride fgStride planeSize csp : Int)
    (rows : Nat) (top left width : Int) : Int → Nat :=
  cropRows src (cropSize stride fgStride csp left width) left stride fgStride
    planeSize rows (cropOffset stride csp top left) 0 dst

/-- `crop_x264_pic` on a `W x H` YUV 4:2:0 source picture with an
`fovea x fovea` destination: adjusts the gaze for evenness and copies the
three planes with subsampling factors `(1, 2, 2)`.  Strides and plane sizes
are the ones `x264_picture_alloc` uses for these pictures. -/
def crop_x264_pic (W H fovea : Nat) (gaze : GazeSample) (src dst : YuvPic) :
    GazeSample × YuvPic :=
  let top := cropTop gaze.p_y fovea
  let left := cropLeft gaze.p_x fovea
  ⟨adjustGaze gaze fovea fovea,
    ⟨cropPlane src.p0 dst.p0 (W : Int) (fovea : Int) ((W : Int) * (H : Int)) 1
        fovea top left (fovea : Int),
      cropPlane src.p1 dst.p1 ((W / 2 : Nat) : Int) ((fovea / 2 : Nat) : Int)
        (((W / 2 : Nat) : Int) * ((H / 2 : Nat) : Int)) 2 (fovea / 2) top left
        (fovea : Int),
      cropPlane src.p2 dst.p2 ((W / 2 : Nat) : Int) ((fovea / 2 : Nat) : Int)
        (((W / 2 : Nat) : Int) * ((H / 2 : Nat) : Int)) 2 (fovea / 2) top left
        (fovea : Int)⟩⟩

theorem copyRange_out (src dst : Int → Nat) (sOff dOff n a : Int)
    (h : a < dOff ∨ dOff + n ≤ a) : copyRange src dst sOff dOff n a = dst a := by
  unfold copyRange
  rw [if_neg]
  omega

theorem copyRange_in (src dst : Int → Nat) (sOff dOff n a : Int)
    (h : dOff ≤ a ∧ a < dOff + n) :
    copyRange src dst sOff dOff n a = src (sOff + (a - dOff)) := by
  unfold copyRange
  rw [if_pos h]

theorem cropRowWrite_out (src dst : Int → Nat) (size left srcOff dstOff fgStride a : Int)
    (hsz : size ≤ fgStride) (ha : a < dstOff ∨ dstOff + fgStride ≤ a) :
    cropRowWrite src size left srcOff dstOff dst a = dst a := by
  have hl : 0 ≤ |left| := abs_nonneg left
  unfold cropRowWrite
  by_cases h1 : srcOff + size ≤ 0
  · rw [if_pos h1]
  · rw [if_neg h1]
    by_cases h2 : srcOff < 0
    · rw [if_pos h2]
      exact copyRange_out _ _ _ _ _ _ (by omega)
    · rw [if_neg h2]
      exact copyRange_out _ _ _ _ _ _ (by omega)

theorem cropRowWrite_congr (src dst dst' : Int → Nat)
    (size left srcOff dstOff a : Int) (h : dst a = dst' a) :
    cropRowWrite src size left srcOff dstOff dst a
      = cropRowWrite src size left srcOff dstOff dst' a := by
  unfold cropRowWrite
  by_cases h1 : srcOff + size ≤ 0
  · rw [if_pos h1, if_pos h1]
    exact h
  · rw [if_neg h1, if_neg h1]
    by_cases h2 : srcOff < 0
    · rw [if_pos h2, if_pos h2]
      simp only [copyRange]
      split
      · rfl
      · exact h
    · rw [if_neg h2, if_neg h2]
      simp only [copyRange]
      split
      · rfl
      · exact h

theorem cropRowWrite_skip (src dst : Int → Nat) (size left srcOff dstOff : Int)
    (h : srcOff + size ≤ 0) :
    cropRowWrite src size left srcOff dstOff dst = dst := by
  unfold cropRowWrite
  rw [if_pos h]

theorem cropRowWrite_straddle_out (src dst : Int → Nat)
    (size left srcOff dstOff c : Int) (h2 : srcOff < 0)
    (hc : c < |left| ∨ size ≤ c) :
    cropRowWrite src size left srcOff dstOff dst (dstOff + c) = dst (dstOff + c) := by
  unfold cropRowWrite
  by_cases h1 : srcOff + size ≤ 0
  · rw [if_pos h1]
  · rw [if_neg h1, if_pos h2]
    exact copyRange_out _ _ _ _ _ _ (by omega)

theorem cropRowWrite_straddle_in (src dst : Int → Nat)
    (size left srcOff dstOff c : Int) (h1 : ¬srcOff + size ≤ 0) (h2 : srcOff < 0)
    (hc1 : |left| ≤ c) (hc2 : c < size) :
    cropRowWrite src size left srcOff dstOff dst (dstOff + c)
      = src (srcOff + c) := by
  unfold cropRowWrite
  rw [if_neg h1, if_pos h2, copyRange_in _ _ _ _ _ _ (by omega)]
  congr 1
  ring

theorem cropRowWrite_main_in (src dst : Int → Nat)
    (size left srcOff dstOff c : Int) (h2 : 0 ≤ srcOff) (hc1 : 0 ≤ c)
    (hc2 : c < size) :
    cropRowWrite src size left srcOff dstOff dst (dstOff + c)
      = src (srcOff + c) := by
  unfold cropRowWrite
  rw [if_neg (by omega), if_neg (by omega), copyRange_in _ _ _ _ _ _ (by omega)]
  congr 1
  ring

theorem cropRowWrite_main_out (src dst : Int → Nat)
    (size left srcOff dstOff c : Int) (h2 : 0 ≤ srcOff) (hc : size ≤ c) :
    cropRowWrite src size left srcOff dstOff dst (dstOff + c) = dst (dstOff + c) := by
  unfold cropRowWrite
  by_cases h1 : srcOff + size ≤ 0
  · rw [if_pos h1]
  · rw [if_neg h1, if_neg (by omega)]
    exact copyRange_out _ _ _ _ _ _ (by omega)

theorem cropRows_below (src : Int → Nat) (size left srcStride fgStride planeSize : Int)
    (hsz : size ≤ fgStride) (hfg : 0 ≤ fgStride) :
    ∀ (n : Nat) (srcOff dstOff : Int) (dst : Int → Nat) (a : Int), a < dstOff →
      cropRows src size left srcStride fgStride planeSize n srcOff dstOff dst a
        = dst a := by
  intro n
  induction n with
  | zero => intro srcOff dstOff dst a _; rfl
  | succ r ih =>
    intro srcOff dstOff dst a ha
    unfold cropRows
    have hw : cropRowWrite src size left srcOff dstOff dst a = dst a :=
      cropRowWrite_out src dst size left srcOff dstOff fgStride a hsz (Or.inl ha)
    split
    · exact hw
    · rw [ih (srcOff + srcStride) (dstOff + fgStride) _ a (by omega), hw]

/-- The master row lemma: the value of an executed row `r` at column `c` is
the iteration body's value for that row, applied to the original
destination. -/
theorem cropRows_row (src : Int → Nat) (size left srcStride fgStride planeSize : Int)
    (hsz : size ≤ fgStride) (hfg : 0 < fgStride) (hst : 0 < srcStride) :
    ∀ (r n : Nat) (srcOff dstOff : Int) (dst : Int → Nat) (c : Int),
      0 ≤ c → c < fgStride → r < n →
      (r = 0 ∨ srcOff + r * srcStride ≤ planeSize) →
      cropRows src size left srcStride fgStride planeSize n srcOff dstOff dst
          (dstOff + r * fgStride + c)
        = cropRowWrite src size left (srcOff + r * srcStride)
            (dstOff + r * fgStride) dst (dstOff + r * fgStride + c) := by
  intro r
  induction r with
  | zero =>
    intro n srcOff dstOff dst c hc0 hc1 hn _
    match n, hn with
    | m + 1, _ =>
      unfold cropRows
      simp only [Nat.cast_zero, Int.zero_mul, Int.add_zero]
      split
      · rfl
      · rw [cropRows_below src size left srcStride fgStride planeSize hsz
          (le_of_lt hfg) m (srcOff + srcStride) (dstOff + fgStride) _
          (dstOff + c) (by omega)]
  | succ k ih =>
    intro n srcOff dstOff dst c hc0 hc1 hn hexec
    match n, hn with
    | m + 1, hn =>
      have hcast : ((k + 1 : Nat) : Int) = (k : Int) + 1 := by push_cast; ring
      have hexec2 : srcOff + ((k + 1 : Nat) : Int) * srcStride ≤ planeSize := by
        rcases hexec with h | h
        · exact absurd h (by omega)
        · exact h
      have hnobreak : ¬planeSize < srcOff + srcStride := by
        rw [hcast] at hexec2
        have : srcOff + srcStride ≤ srcOff + ((k : Int) + 1) * srcStride := by
          have hk0 : (0 : Int) ≤ (k : Int) := Int.natCast_nonneg k
          nlinarith
        omega
      unfold cropRows
      rw [if_neg hnobreak]
      have haddr : dstOff + ((k + 1 : Nat) : Int) * fgStride + c
          = (dstOff + fgStride) + (k : Int) * fgStride + c := by
        rw [hcast]; ring
      have hsrc : (srcOff + srcStride) + (k : Int) * srcStride
          = srcOff + ((k + 1 : Nat) : Int) * srcStride := by
        rw [hcast]; ring
      rw [haddr, ih m (srcOff + srcStride) (dstOff + fgStride) _ c hc0 hc1
        (by omega)
        (Or.inr (by rw [hsrc]; exact hexec2))]
      rw [hsrc]
      have hdst : (dstOff + fgStride) + (k : Int) * fgStride
          = dstOff + ((k + 1 : Nat) : Int) * fgStride := by
        rw [hcast]; ring
      rw [hdst]
      refine cropRowWrite_congr src _ dst size left _ _ _ ?_
      refine cropRowWrite_out src dst size left srcOff dstOff fgStride _ hsz
        (Or.inr ?_)
      have hkfg : (0 : Int) ≤ (k : Int) * fgStride :=
        mul_nonneg (Int.natCast_nonneg k) (le_of_lt hfg)
      have hmulfg : ((k + 1 : Nat) : Int) * fgStride
          = (k : Int) * fgStride + fgStride := by rw [hcast]; ring
      omega

/-- Rows whose source offset starts past the end of the plane are never
executed: the loop has broken before reaching them. -/
theorem cropRows_past_end (src : Int → Nat)
    (size left srcStride fgStride planeSize : Int)
    (hsz : size ≤ fgStride) (hfg : 0 < fgStride) (hst : 0 < srcStride) :
    ∀ (n r : Nat) (srcOff dstOff : Int) (dst : Int → Nat) (c : Int),
      0 ≤ c → c < fgStride → 1 ≤ r →
      planeSize < srcOff + r * srcStride →
      cropRows src size left srcStride fgStride planeSize n srcOff dstOff dst
          (dstOff + r * fgStride + c)
        = dst (dstOff + r * fgStride + c) := by
  intro n
  induction n with
  | zero => intro r srcOff dstOff dst c _ _ _ _; rfl
  | succ m ih =>
    intro r srcOff dstOff dst c hc0 hc1 hr hpast
    have h1r : (1 : Int) ≤ (r : Int) := by exact_mod_cast hr
    have hband : fgStride ≤ (r : Int) * fgStride :=
      le_mul_of_one_le_left (le_of_lt hfg) h1r
    have hw : cropRowWrite src size left srcOff dstOff dst
        (dstOff + r * fgStride + c) = dst (dstOff + r * fgStride + c) :=
      cropRowWrite_out src dst size left srcOff dstOff fgStride _ hsz
        (Or.inr (by omega))
    unfold cropRows
    by_cases hb : planeSize < srcOff + srcStride
    · rw [if_pos hb]
      exact hw
    · rw [if_neg hb]
      match r, hr, hpast with
      | 1, _, hpast =>
        exfalso
        have hone : ((1 : Nat) : Int) * srcStride = srcStride := by
          push_cast; ring
        omega
      | k + 2, _, hpast =>
        have haddr : dstOff + ((k + 2 : Nat) : Int) * fgStride + c
            = (dstOff + fgStride) + ((k + 1 : Nat) : Int) * fgStride + c := by
          push_cast; ring
        have hnext : planeSize < (srcOff + srcStride)
            + ((k + 1 : Nat) : Int) * srcStride := by
          have : srcOff + ((k + 2 : Nat) : Int) * srcStride
              = (srcOff + srcStride) + ((k + 1 : Nat) : Int) * srcStride := by
            push_cast; ring
          omega
        rw [haddr, ih (k + 1) (srcOff + srcStride) (dstOff + fgStride) _ c
          hc0 hc1 (by omega) hnext]
        have hkfg : (0 : Int) ≤ ((k + 1 : Nat) : Int) * fgStride :=
          mul_nonneg (Int.natCast_nonneg _) (le_of_lt hfg)
        exact cropRowWrite_out src dst size left srcOff dstOff fgStride _ hsz
          (Or.inr (by omega))

theorem cropSize_le (stride fgStride csp left width : Int) :
    cropSize stride fgStride csp left width ≤ fgStride := by
  unfold cropSize
  split <;> omega

/-- Sentinel-filled destination picture for the counterexample. -/
def cexDst : YuvPic := ⟨fun _ => 0, fun _ => 0, fun _ => 0⟩

/-- Source picture for the counterexample: byte at address `a` of the luma
plane holds `a + 1` inside the buffer, 0 outside. -/
def cexSrc : YuvPic :=
  ⟨fun a => if 0 ≤ a ∧ a < 64 then a.toNat + 1 else 0, fun _ => 128, fun _ => 128⟩

/-- C5 counterexample: on an 8x8 source with fovea 4 and gaze `(0, 4)`,
the crop rectangle extends 2 columns past the left edge
(`left = -2 < 0`), and destination row 0 is a partially-visible row; yet
its column 0 — outside the in-range columns — is overwritten (with the
byte at source address 14, i.e. row 1, column 6 of the luma plane) instead
of being left untouched, refuting the claim's per-row column clipping. -/
theorem crop_x264_pic_copies_out_of_range_columns :
    cropLeft 0 4 < 0 ∧
      (crop_x264_pic 8 8 4 ⟨0, 0, 0, 0, 0, 0, 0, 4, 0, 0⟩ cexSrc cexDst).2.p0 0 = 15 ∧
      cexDst.p0 0 = 0 := by
  refine ⟨by decide, ?_, rfl⟩
  decide

/-- C5 (amended): `crop_x264_pic` makes the crop's top-left even, bumping
`p_y`/`p_x` by one exactly when the centered coordinate is odd (the fovea
size is passed through unchanged), and clips the per-plane copy against
the plane as a linear buffer: a destination row whose source bytes all
fall at or before the start of the plane is left unmodified, as is any row
(beyond the first) whose source offset starts past the end of the plane;
in the row that straddles the start of the plane only destination columns
`|left| .. size-1` are written and the others are untouched; every other
executed row is copied in full `size` bytes (`size` clips the destination
stride on the right against the source stride), columns at `size` and
beyond staying untouched — so out-of-image but in-buffer columns are
copied rather than skipped. -/
theorem crop_x264_pic_spec :
    (∀ (W H fovea : Nat) (gaze : GazeSample) (src dst : YuvPic),
      Even (cropTop gaze.p_y fovea) ∧ Even (cropLeft gaze.p_x fovea) ∧
      (crop_x264_pic W H fovea gaze src dst).1.p_y
        = (if Even ((gaze.p_y : Int) - (fovea : Int) / 2) then gaze.p_y
          else gaze.p_y + 1) ∧
      (crop_x264_pic W H fovea gaze src dst).1.p_x
        = (if Even ((gaze.p_x : Int) - (fovea : Int) / 2) then gaze.p_x
          else gaze.p_x + 1)) ∧
    (∀ (src dst : Int → Nat) (stride fgStride planeSize csp : Int) (rows : Nat)
      (top left width : Int) (r : Nat) (c : Int),
      0 < stride → 0 < fgStride → r < rows → 0 ≤ c → c < fgStride →
      cropOffset stride csp top left + r * stride
          + cropSize stride fgStride csp left width ≤ 0 →
      cropPlane src dst stride fgStride planeSize csp rows top left width
          (r * fgStride + c)
        = dst (r * fgStride + c)) ∧
    (∀ (src dst : Int → Nat) (stride fgStride planeSize csp : Int) (rows : Nat)
      (top left width : Int) (r : Nat) (c : Int),
      0 < stride → 0 < fgStride → 0 ≤ c → c < fgStride → 1 ≤ r →
      planeSize < cropOffset stride csp top left + r * stride →
      cropPlane src dst stride fgStride planeSize csp rows top left width
          (r * fgStride + c)
        = dst (r * fgStride + c)) ∧
    (∀ (src dst : Int → Nat) (stride fgStride planeSize csp : Int) (rows : Nat)
      (top left width : Int) (r : Nat) (c : Int),
      0 < stride → 0 < fgStride → r < rows → 0 ≤ c → c < fgStride →
      (r = 0 ∨ cropOffset stride csp top left + r * stride ≤ planeSize) →
      cropOffset stride csp top left + r * stride < 0 →
      (c < |left| ∨ cropSize stride fgStride csp left width ≤ c) →
      cropPlane src dst stride fgStride planeSize csp rows top left width
          (r * fgStride + c)
        = dst (r * fgStride + c)) ∧
    (∀ (src dst : Int → Nat) (stride fgStride planeSize csp : Int) (rows : Nat)
      (top left width : Int) (r : Nat) (c : Int),
      0 < stride → 0 < fgStride → r < rows → 0 ≤ c → c < fgStride →
      (r = 0 ∨ cropOffset stride csp top left + r * stride ≤ planeSize) →
      cropOffset stride csp top left + r * stride < 0 →
      0 < cropOffset stride csp top left + r * stride
          + cropSize stride fgStride csp left width →
      |left| ≤ c → c < cropSize stride fgStride csp left width →
      cropPlane src dst stride fgStride planeSize csp rows top left width
          (r * fgStride + c)
        = src (cropOffset stride csp top left + r * stride + c)) ∧
    (∀ (src dst : Int → Nat) (stride fgStride planeSize csp : Int) (rows : Nat)
      (top left width : Int) (r : Nat) (c : Int),
      0 < stride → 0 < fgStride → r < rows → 0 ≤ c → c < fgStride →
      (r = 0 ∨ cropOffset stride csp top left + r * stride ≤ planeSize) →
      0 ≤ cropOffset stride csp top left + r * stride →
      c < cropSize stride fgStride csp left width →
      cropPlane src dst stride fgStride planeSize csp rows top left width
          (r * fgStride + c)
        = src (cropOffset stride csp top left + r * stride + c)) ∧
    (∀ (src dst : Int → Nat) (stride fgStride planeSize csp : Int) (rows : Nat)
      (top left width : Int) (r : Nat) (c : Int),
      0 < stride → 0 < fgStride → r < rows → 0 ≤ c → c < fgStride →
      (r = 0 ∨ cropOffset stride csp top left + r * stride ≤ planeSize) →
      0 ≤ cropOffset stride csp top left + r * stride →
      cropSize stride fgStride csp left width ≤ c →
      cropPlane src dst stride fgStride planeSize csp rows top left width
          (r * fgStride + c)
        = dst (r * fgStride + c)) := by
  have haddr0 : ∀ (r : Nat) (fgStride c : Int),
      (r : Int) * fgStride + c = 0 + (r : Int) * fgStride + c := fun r f c => by ring
  refine ⟨?_, ?_, ?_, ?_, ?_, ?_, ?_⟩
  · intro W H fovea gaze src dst
    refine ⟨?_, ?_, ?_, ?_⟩
    · unfold cropTop
      dsimp only
      by_cases h : ((gaze.p_y : Int) - (fovea : Int) / 2) % 2 = 0
      · rw [if_pos h]
        exact Int.even_iff.mpr h
      · rw [if_neg h]
        exact Int.even_add_one.mpr (fun he => h (Int.even_iff.mp he))
    · unfold cropLeft
      dsimp only
      by_cases h : ((gaze.p_x : Int) - (fovea : Int) / 2) % 2 = 0
      · rw [if_pos h]
        exact Int.even_iff.mpr h
      · rw [if_neg h]
        exact Int.even_add_one.mpr (fun he => h (Int.even_iff.mp he))
    · show (adjustGaze gaze fovea fovea).p_y = _
      unfold adjustGaze
      dsimp only
      exact if_congr (Int.even_iff).symm rfl rfl
    · show (adjustGaze gaze fovea fovea).p_x = _
      unfold adjustGaze
      dsimp only
      exact if_congr (Int.even_iff).symm rfl rfl
  · intro src dst stride fgStride planeSize csp rows top left width r c
      hst hfg hr hc0 hc1 hskip
    unfold cropPlane
    rw [haddr0]
    by_cases hexec : r = 0 ∨ cropOffset stride csp top left + r * stride ≤ planeSize
    · rw [cropRows_row src _ left stride fgStride planeSize
        (cropSize_le stride fgStride csp left width) hfg hst r rows
        (cropOffset stride csp top left) 0 dst c hc0 hc1 hr hexec,
        cropRowWrite_skip _ _ _ _ _ _ hskip]
    · push_neg at hexec
      rw [← haddr0]
      have h := cropRows_past_end src _ left stride fgStride planeSize
        (cropSize_le stride fgStride csp left width) hfg hst rows r
        (cropOffset stride csp top left) 0 dst c hc0 hc1
        (Nat.one_le_iff_ne_zero.mpr hexec.1) hexec.2
      simpa using h
  · intro src dst stride fgStride planeSize csp rows top left width r c
      hst hfg hc0 hc1 hr hpast
    unfold cropPlane
    have h := cropRows_past_end src _ left stride fgStride planeSize
      (cropSize_le stride fgStride csp left width) hfg hst rows r
      (cropOffset stride csp top left) 0 dst c hc0 hc1 hr hpast
    simpa using h
  · intro src dst stride fgStride planeSize csp rows top left width r c
      hst hfg hr hc0 hc1 hexec hneg hc
    unfold cropPlane
    rw [haddr0, cropRows_row src _ left stride fgStride planeSize
      (cropSize_le stride fgStride csp left width) hfg hst r rows
      (cropOffset stride csp top left) 0 dst c hc0 hc1 hr hexec]
    rw [show (0 : Int) + r * fgStride + c = (0 + r * fgStride) + c by ring]
    exact cropRowWrite_straddle_out src dst _ left _ _ c hneg hc
  · intro src dst stride fgStride planeSize csp rows top left width r c
      hst hfg hr hc0 hc1 hexec hneg hpos hcl hcr
    unfold cropPlane
    rw [haddr0, cropRows_row src _ left stride fgStride planeSize
      (cropSize_le stride fgStride csp left width) hfg hst r rows
      (cropOffset stride csp top left) 0 dst c hc0 hc1 hr hexec]
    rw [show (0 : Int) + r * fgStride + c = (0 + r * fgStride) + c by ring]
    exact cropRowWrite_straddle_in src dst _ left _ _ c (by omega) hneg hcl hcr
  · intro src dst stride fgStride planeSize csp rows top left width r c
      hst hfg hr hc0 hc1 hexec hnn hcr
    unfold cropPlane
    rw [haddr0, cropRows_row src _ left stride fgStride planeSize
      (cropSize_le stride fgStride csp left width) hfg hst r rows
      (cropOffset stride csp top left) 0 dst c hc0 hc1 hr hexec]
    rw [show (0 : Int) + r * fgStride + c = (0 + r * fgStride) + c by ring]
    exact cropRowWrite_main_in src dst _ left _ _ c hnn hc0 hcr
  · intro src dst stride fgStride planeSize csp rows top left width r c
      hst hfg hr hc0 hc1 hexec hnn hcr
    unfold cropPlane
    rw [haddr0, cropRows_row src _ left stride fgStride planeSize
      (cropSize_le stride fgStride csp left width) hfg hst r rows
      (cropOffset stride csp top left) 0 dst c hc0 hc1 hr hexec]
    rw [show (0 : Int) + r * fgStride + c = (0 + r * fgStride) + c by ring]
    exact cropRowWrite_main_out src dst _ left _ _ c hnn hcr

/-- Witness for C5 (amended): the full-copy case on the luma plane of an
8x8 source with fovea 4, gaze `(4, 4)`, row 1, column 1. -/
theorem crop_x264_pic_spec_witness :
    (0 : Int) < 8 ∧ (0 : Int) < 4 ∧ 1 < 4 ∧ (0 : Int) ≤ 1 ∧ (1 : Int) < 4 ∧
      ((1 : Nat) = 0 ∨ cropOffset 8 1 2 2 + (1 : Nat) * 8 ≤ 64) ∧
      (0 : Int) ≤ cropOffset 8 1 2 2 + (1 : Nat) * 8 ∧
      (1 : Int) < cropSize 8 4 1 2 4 ∧
      cropPlane cexSrc.p0 cexDst.p0 8 4 64 1 4 2 2 4 ((1 : Nat) * 4 + 1)
        = cexSrc.p0 (cropOffset 8 1 2 2 + (1 : Nat) * 8 + 1) :=
  ⟨by decide, by decide, by decide, by decide, by decide, by decide, by decide,
    by decide,
    crop_x264_pic_spec.2.2.2.2.2.1 cexSrc.p0 cexDst.p0 8 4 64 1 4 2 2 4 1 1
      (by decide) (by decide) (by decide) (by decide) (by decide) (by decide)
      (by decide) (by decide)⟩

end Fvideo
